import Mathlib

/-! The XOR stream transform, the byte-size parser and the key generator of otp-cli.

A shallow embedding of `main.go`: `xorStreams` (with the part of Go's `io`
package it calls), `parseSizeBytes` (with the part of `strconv`, `strings`
and `unicode` it calls), and `generateKey` and `generateKeys` (with the part
of `os`, `io`, `strings` and `strconv` they call), followed by the properties
proved about them.
-/

namespace OtpCli

/-! ## Errors -/

/-- The error values that the embedded functions can return. `EOF`,
`ErrUnexpectedEOF`, `ErrShortBuffer` and `ErrShortWrite` are those of Go's `io` package,
`NumErrSyntax` and `NumErrRange` stand for a `*strconv.NumError` wrapping
`strconv.ErrSyntax` and `strconv.ErrRange`, `ioError` is any other error of an
underlying stream, and the rest are the error variables of `main.go`. -/
inductive GoError where
  | EOF
  | ErrUnexpectedEOF
  | ErrShortBuffer
  | ErrKeyTooShort
  | ErrNoKeyFile
  | ErrNoOutputFile
  | ErrMissingPlaceholder
  | ErrInvalidUnit
  | NumErrSyntax
  | NumErrRange
  | ioError (code : Nat)
  | ErrShortWrite
  deriving DecidableEq, Repr

/-! ## Streams -/

/-! Bytes are kept as natural numbers: a `List Nat` that stands for the content
of a stream, a buffer or a string holds numbers below 256. -/

/-- The constant `bufferSize` of `main.go`. -/
def bufferSize : Nat := 4096

/-- One scripted answer of a reader: the bytes the next call of `Read` may
deliver and the error returned with the last of them. -/
structure ReadStep where
  bytes : List Nat
  err : Option GoError
  deriving DecidableEq, Repr

/-- An `io.Reader`, given by the script of what its successive `Read` calls
deliver. A `Read` never crosses a step, so a script with several steps is a
stream with short reads; after the script the reader answers `(0, io.EOF)`. -/
structure Reader where
  steps : List ReadStep
  deriving DecidableEq, Repr

/-- The method `Read(p)` of an `io.Reader` for a slice `p` of length `len`: the
bytes copied to the front of `p`, the error, and the reader afterwards. -/
def Reader.Read (r : Reader) (len : Nat) : List Nat × Option GoError × Reader :=
  match r.steps with
  | [] => ([], some GoError.EOF, r)
  | s :: rest =>
    if s.bytes.length ≤ len then (s.bytes, s.err, ⟨rest⟩)
    else (s.bytes.take len, none, ⟨⟨s.bytes.drop len, s.err⟩ :: rest⟩)

/-- The bytes a reader has yet to deliver. -/
def Reader.remaining (r : Reader) : List Nat :=
  (r.steps.map ReadStep.bytes).flatten

/-- The number of bytes a reader has yet to deliver. -/
def Reader.size (r : Reader) : Nat :=
  (r.steps.map fun s => s.bytes.length).sum

/-- A bound on the number of `Read` calls that make progress. -/
def Reader.weight (r : Reader) : Nat :=
  (r.steps.map fun s => s.bytes.length + 1).sum

/-- A stream over `data` that fills each read as far as data remains and then
reports `io.EOF` with no bytes, as an `os.File` over a regular file does. -/
def Reader.ofBytes (data : List Nat) : Reader :=
  if data.isEmpty then ⟨[]⟩ else ⟨[⟨data, none⟩]⟩

/-- A stream that hands out its data in the given pieces, one piece (or a part
of it) a read, without error, and then reports `io.EOF`. -/
def Reader.ofChunks (chunks : List (List Nat)) : Reader :=
  ⟨chunks.map fun c => ⟨c, none⟩⟩

/-- An `io.Writer`: the bytes written so far, and when the sink is bounded how
many more bytes it accepts and the error it returns beyond that. -/
structure Writer where
  out : List Nat
  room : Option (Nat × GoError)
  deriving DecidableEq, Repr

/-- The method `Write(p)` of an `io.Writer`: the count written, the error (not
nil whenever the count is short), and the writer afterwards. -/
def Writer.Write (w : Writer) (p : List Nat) : Nat × Option GoError × Writer :=
  match w.room with
  | none => (p.length, none, ⟨w.out ++ p, none⟩)
  | some (k, e) =>
    if p.length ≤ k then (p.length, none, ⟨w.out ++ p, some (k - p.length, e)⟩)
    else (k, some e, ⟨w.out ++ p.take k, some (0, e)⟩)

/-- A writer that never fails, holding `out`. -/
def Writer.unbounded (out : List Nat) : Writer := ⟨out, none⟩

/-! ## `io.ReadAtLeast` -/

/-- The loop of Go's `io.ReadAtLeast`,
`for n < min && err == nil { nn, err = r.Read(buf[n:]); n += nn }`,
run for at most `fuel` iterations. -/
def readAtLeastLoop (min : Nat) :
    Nat → Reader → List Nat → Nat → Option GoError →
      Option (Nat × Option GoError × Reader × List Nat)
  | 0, _, _, _, _ => none
  | fuel + 1, r, buf, n, err =>
    if n < min ∧ err = none then
      match r.Read (buf.length - n) with
      | (bs, e, r') =>
        readAtLeastLoop min fuel r' (buf.take n ++ bs ++ buf.drop (n + bs.length))
          (n + bs.length) e
    else some (n, err, r, buf)

/-- Go's `io.ReadAtLeast(r, buf, min)`: the count read, the error, the reader
and the buffer afterwards. -/
def ReadAtLeast (r : Reader) (buf : List Nat) (min : Nat) :
    Option (Nat × Option GoError × Reader × List Nat) :=
  if buf.length < min then some (0, some GoError.ErrShortBuffer, r, buf)
  else
    match readAtLeastLoop min (r.weight + 2) r buf 0 none with
    | none => none
    | some (n, err, r', buf') =>
      if n ≥ min then some (n, none, r', buf')
      else if n > 0 ∧ err = some GoError.EOF then
        some (n, some GoError.ErrUnexpectedEOF, r', buf')
      else some (n, err, r', buf')

/-! ## `xorStreams` -/

/-- The loop `for i := 0; i < n; i++ { msgBuf[i] ^= keyBuf[i] }`. -/
def xorPrefix : Nat → List Nat → List Nat → List Nat
  | n + 1, m :: ms, k :: ks => (m ^^^ k) :: xorPrefix n ms ks
  | _, ms, _ => ms

/-- What a call of `xorStreams` leaves behind: the two values it returns and
the three streams afterwards. -/
structure XorResult where
  written : Nat
  err : Option GoError
  key : Reader
  input : Reader
  output : Writer
  deriving DecidableEq, Repr

/-- The `for` loop of `xorStreams`, run for at most `fuel` iterations. -/
def xorLoop :
    Nat → Reader → Reader → Writer → List Nat → List Nat → Nat → Option XorResult
  | 0, _, _, _, _, _, _ => none
  | fuel + 1, key, input, output, msgBuf, keyBuf, written =>
    match input.Read msgBuf.length with
    | (bs, msgErr, input') =>
      let n := bs.length
      let msgBuf := bs ++ msgBuf.drop n
      if msgErr ≠ none ∧ msgErr ≠ some GoError.EOF then
        some ⟨written, msgErr, key, input', output⟩
      else
        match ReadAtLeast key keyBuf n with
        | none => none
        | some (_, keyErr, key', keyBuf') =>
          if keyErr ≠ none then
            if keyErr = some GoError.EOF ∨ keyErr = some GoError.ErrUnexpectedEOF then
              some ⟨written, some GoError.ErrKeyTooShort, key', input', output⟩
            else some ⟨written, keyErr, key', input', output⟩
          else
            let msgBuf := xorPrefix n msgBuf keyBuf'
            match output.Write (msgBuf.take n) with
            | (w, err, output') =>
              if err ≠ none then some ⟨written, err, key', input', output'⟩
              else
                let written := written + w
                if n < msgBuf.length then some ⟨written, none, key', input', output'⟩
                else xorLoop fuel key' input' output' msgBuf keyBuf' written

/-- The function `xorStreams(key, input, output)` of `main.go`. The loop is
given as many iterations as the input has bytes, and one more. -/
def xorStreams (key input : Reader) (output : Writer) : Option XorResult :=
  xorLoop (input.size + 1) key input output
    (List.replicate bufferSize 0) (List.replicate bufferSize 0) 0

/-- The number of key bytes a successful run takes from a key stream that fills
each read, for an input of `n` bytes: `n` rounded up to whole buffers (and no
more than the key holds). -/
def keyBytesRead (n : Nat) : Nat :=
  bufferSize * ((n + bufferSize - 1) / bufferSize)

/-! ## Strings and the `unicode`, `strings` and `strconv` functions used

A Go string is modelled by the sequence of its code points (a `List Char`), so
the model covers the strings that are valid UTF-8; where the source indexes or
slices the string, the model does so on its UTF-8 bytes. -/

/-- The UTF-8 encoding of a code point. -/
def utf8Char (c : Char) : List Nat :=
  let v := c.toNat
  if v ≤ 0x7F then [v]
  else if v ≤ 0x7FF then [0xC0 + v / 64, 0x80 + v % 64]
  else if v ≤ 0xFFFF then [0xE0 + v / 4096, 0x80 + v / 64 % 64, 0x80 + v % 64]
  else [0xF0 + v / 262144, 0x80 + v / 4096 % 64, 0x80 + v / 64 % 64, 0x80 + v % 64]

/-- The bytes of a string. -/
def utf8 (str : List Char) : List Nat :=
  (str.map utf8Char).flatten

/-- The tables of Go's `unicode` package above Latin-1, which are not part of
the program: the range table `unicode.Number` and the lower-case mapping of
`unicode.CaseRanges` for the code points above U+00FF. They are parameters of
the model. -/
structure UnicodeTables where
  numberAbove : Char → Bool
  lowerAbove : Char → Char

/-- The entries with the property `pN` in the Latin-1 table of Go's `unicode`
package: the digits 0 to 9, the superscripts U+00B2, U+00B3, U+00B9 and the
fractions U+00BC to U+00BE. -/
def latin1Number (v : Nat) : Bool :=
  (0x30 ≤ v ∧ v ≤ 0x39) ∨ v = 0xB2 ∨ v = 0xB3 ∨ v = 0xB9 ∨ (0xBC ≤ v ∧ v ≤ 0xBE)

/-- Go's `unicode.IsNumber`: the Latin-1 table up to U+00FF, the range table
`unicode.Number` above. -/
def IsNumber (U : UnicodeTables) (r : Char) : Bool :=
  if r.toNat ≤ 0xFF then latin1Number r.toNat else U.numberAbove r

/-- Go's `unicode.ToLower`: `A` to `Z` are moved to `a` to `z` and the other
ASCII characters are kept; above ASCII the table `unicode.CaseRanges` decides,
which within Latin-1 moves U+00C0 to U+00D6 and U+00D8 to U+00DE up by 32 and
keeps the rest. -/
def ToLowerRune (U : UnicodeTables) (r : Char) : Char :=
  if r.toNat ≤ 0x7F then
    if 'A'.toNat ≤ r.toNat ∧ r.toNat ≤ 'Z'.toNat then Char.ofNat (r.toNat + ('a'.toNat - 'A'.toNat))
    else r
  else if r.toNat ≤ 0xFF then
    if (0xC0 ≤ r.toNat ∧ r.toNat ≤ 0xD6) ∨ (0xD8 ≤ r.toNat ∧ r.toNat ≤ 0xDE) then
      Char.ofNat (r.toNat + 32)
    else r
  else U.lowerAbove r

/-- Go's `strings.ToLower`: every code point is mapped by `unicode.ToLower`. -/
def ToLower (U : UnicodeTables) (str : List Char) : List Char :=
  str.map (ToLowerRune U)

/-- Go's `strings.ReplaceAll(str, " ", "")`: every space is removed. -/
def ReplaceAllSpaces (str : List Char) : List Char :=
  str.filter fun c => c ≠ ' '

/-- The loop over the digits in Go's `strconv.ParseUint(s, 10, 64)`, with `n`
the value so far: a byte that is no digit is a syntax error, a value above
`2^64 - 1` a range error. -/
def parseUintLoop : List Nat → Nat → Except GoError Nat
  | [], n => Except.ok n
  | c :: cs, n =>
    if '0'.toNat ≤ c ∧ c ≤ '9'.toNat then
      let d := c - '0'.toNat
      if n ≥ (2 ^ 64 - 1) / 10 + 1 then Except.error GoError.NumErrRange
      else
        let n10 := n * 10
        let n1 := (n10 + d) % 2 ^ 64
        if n1 < n10 ∨ n1 > 2 ^ 64 - 1 then Except.error GoError.NumErrRange
        else parseUintLoop cs n1
    else Except.error GoError.NumErrSyntax

/-- Go's `strconv.ParseUint(s, 10, 64)` on the bytes of `s`. -/
def ParseUint (s : List Nat) : Except GoError Nat :=
  if s = [] then Except.error GoError.NumErrSyntax else parseUintLoop s 0

/-- Go's `strconv.ParseInt(s, 10, 64)` on the bytes of `s`: an optional sign,
then `ParseUint`, then the check against the range of `int64`. Only the error
is kept of a failing call. -/
def ParseInt (s : List Nat) : Except GoError Int :=
  match s with
  | [] => Except.error GoError.NumErrSyntax
  | c :: cs =>
    let neg := c = '-'.toNat
    let rest := if c = '+'.toNat ∨ c = '-'.toNat then cs else c :: cs
    match ParseUint rest with
    | Except.error e => Except.error e
    | Except.ok un =>
      if ¬ neg ∧ un ≥ 2 ^ 63 then Except.error GoError.NumErrRange
      else if neg ∧ un > 2 ^ 63 then Except.error GoError.NumErrRange
      else if neg then Except.ok (-(un : Int)) else Except.ok (un : Int)

/-- The conversion of an integer to `int64`, as the arithmetic of Go wraps it. -/
def wrapInt64 (x : Int) : Int :=
  (x + 2 ^ 63) % 2 ^ 64 - 2 ^ 63

/-! ## `parseSizeBytes` -/

def kilobyte : Int := 1000
def megabyte : Int := 1000 * kilobyte
def gigabyte : Int := 1000 * megabyte
def terabyte : Int := 1000 * gigabyte
def kibibyte : Int := 1024
def mebibyte : Int := 1024 * kibibyte
def gibibyte : Int := 1024 * mebibyte
def tebibyte : Int := 1024 * gibibyte

/-- The loop `for i, char := range str` of `parseSizeBytes`: the byte offset of
the first code point for which `unicode.IsNumber` is false, from offset `i`
on; `none` stands for the `index == -1` of the source. -/
def firstNonNumber (U : UnicodeTables) : List Char → Nat → Option Nat
  | [], _ => none
  | c :: cs, i =>
    if !IsNumber U c then some i else firstNonNumber U cs (i + (utf8Char c).length)

/-- The two `switch` statements of `parseSizeBytes`: the scale of the unit
byte `size`, in the 1024-based family when `unitGap` and in the 1000-based one
otherwise. -/
def unitScale (unitGap : Bool) (size : Nat) : Except GoError Int :=
  if unitGap then
    if size = 't'.toNat then Except.ok tebibyte
    else if size = 'g'.toNat then Except.ok gibibyte
    else if size = 'm'.toNat then Except.ok mebibyte
    else if size = 'k'.toNat then Except.ok kibibyte
    else if size = 'b'.toNat then Except.ok 1
    else Except.error GoError.ErrInvalidUnit
  else
    if size = 't'.toNat then Except.ok terabyte
    else if size = 'g'.toNat then Except.ok gigabyte
    else if size = 'm'.toNat then Except.ok megabyte
    else if size = 'k'.toNat then Except.ok kilobyte
    else if size = 'b'.toNat then Except.ok 1
    else Except.error GoError.ErrInvalidUnit

/-- The function `parseSizeBytes(str)` of `main.go`. -/
def parseSizeBytes (U : UnicodeTables) (str : List Char) : Except GoError Int :=
  let str := ReplaceAllSpaces str
  let str := ToLower U str
  match firstNonNumber U str 0 with
  | none => ParseInt (utf8 str)
  | some index =>
    let bytes := utf8 str
    let size := bytes.getD index 0
    let unitGap := if index + 1 < bytes.length then bytes.getD (index + 1) 0 = 'i'.toNat else false
    match unitScale unitGap size with
    | Except.error e => Except.error e
    | Except.ok scale =>
      match ParseInt (bytes.take index) with
      | Except.error e => Except.error e
      | Except.ok value => Except.ok (wrapInt64 (value * scale))

/-! ## The words of the specification about size strings -/

/-- The string as `parseSizeBytes` looks at it: spaces removed, lower-cased. -/
def normalize (U : UnicodeTables) (str : List Char) : List Char :=
  ToLower U (ReplaceAllSpaces str)

/-- One of the ASCII digits `0` to `9`. -/
def isAsciiDigit (c : Char) : Bool :=
  '0'.toNat ≤ c.toNat ∧ c.toNat ≤ '9'.toNat

/-- The value of a run of ASCII digits read in base 10, after the value `n`. -/
def decimalValueFrom : List Char → Nat → Nat
  | [], n => n
  | c :: cs, n => decimalValueFrom cs (n * 10 + (c.toNat - '0'.toNat))

/-- The value of a run of ASCII digits read in base 10. -/
def decimalValue (ds : List Char) : Nat :=
  decimalValueFrom ds 0

/-- The unit letters that `parseSizeBytes` recognises. -/
def unitLetters : List Char := ['b', 'k', 'm', 'g', 't']

/-- The 1000-based scale of a unit letter. -/
def decimalScale (u : Char) : Nat :=
  if u = 'k' then 10 ^ 3 else if u = 'm' then 10 ^ 6 else if u = 'g' then 10 ^ 9
  else if u = 't' then 10 ^ 12 else 1

/-- The 1024-based scale of a unit letter. -/
def binaryScale (u : Char) : Nat :=
  if u = 'k' then 2 ^ 10 else if u = 'm' then 2 ^ 20 else if u = 'g' then 2 ^ 30
  else if u = 't' then 2 ^ 40 else 1

/-- An instance of the tables in which no code point above Latin-1 is a number
and lower-casing changes nothing above Latin-1; it serves to run the model on
strings of Latin-1 characters, where the tables are not consulted. -/
def UnicodeTables.latin1 : UnicodeTables := ⟨fun _ => false, fun c => c⟩

/-! ## The `strings` and `strconv` functions of `generateKeys`

`strings.Contains` and `strings.ReplaceAll` work on bytes; on a string that is
valid UTF-8 and for the ASCII pattern `{i}` the matches are the same on the
code points, where the model looks for them. -/

/-- Go's `strings.Contains(s, substr)`. -/
def Contains (substr : List Char) : List Char → Bool
  | [] => substr.isEmpty
  | c :: cs => substr.isPrefixOf (c :: cs) || Contains substr cs

/-- The scan of Go's `strings.ReplaceAll(s, old, new)` for a non-empty `old`,
with `skip` the code points of a matched `old` still to pass over: from left
to right, each match of `old` that does not overlap an earlier match is
replaced by `new`. -/
def replaceAllFrom (old new : List Char) : Nat → List Char → List Char
  | _, [] => []
  | skip + 1, _ :: cs => replaceAllFrom old new skip cs
  | 0, c :: cs =>
    if old.isPrefixOf (c :: cs) then new ++ replaceAllFrom old new (old.length - 1) cs
    else c :: replaceAllFrom old new 0 cs

/-- Go's `strings.ReplaceAll(s, old, new)` for a non-empty `old`. -/
def ReplaceAll (s old new : List Char) : List Char :=
  replaceAllFrom old new 0 s

/-- The digits of `u` in base 10, most significant first, put before `acc`;
the loop of Go's `strconv.FormatInt` for base 10, run for at most `fuel` digits. -/
def formatDigits : Nat → Nat → List Char → List Char
  | 0, _, acc => acc
  | fuel + 1, u, acc =>
    if u ≥ 10 then formatDigits fuel (u / 10) (Char.ofNat ('0'.toNat + u % 10) :: acc)
    else Char.ofNat ('0'.toNat + u) :: acc

/-- Go's `strconv.Itoa(i)`: the decimal digits of `i`, after a minus sign when
`i` is negative. -/
def Itoa (i : Int) : List Char :=
  if i < 0 then '-' :: formatDigits (i.natAbs + 1) i.natAbs []
  else formatDigits (i.natAbs + 1) i.natAbs []

/-- The placeholder `{i}` of a path template. -/
def placeholder : List Char := ['{', 'i', '}']

/-! ## Files and the random source

The part of Go's `os`, `io` and `crypto/rand` packages that `generateKey`
calls, over a world that holds the regular files, the paths at which opening
fails, and how many bytes were taken from the random source. -/

/-- The world that `generateKey` acts on. `calls` is a ghost record: each
call of `generateKey` adds its arguments and the error it returned. -/
structure World where
  files : List (List Char × List Nat)
  denied : List (List Char × Nat)
  randPos : Nat
  calls : List (List Char × Int × Option GoError)
  deriving DecidableEq, Repr

/-- The flag `os.O_RDONLY`. -/
def O_RDONLY : Nat := 0x0
/-- The flag `os.O_WRONLY`. -/
def O_WRONLY : Nat := 0x1
/-- The flag `os.O_RDWR`. -/
def O_RDWR : Nat := 0x2
/-- The flag `os.O_CREATE`, with its value on Linux. -/
def O_CREATE : Nat := 0x40

/-- The constant `createFilePerm` of `main.go`. -/
def createFilePerm : Nat := 0o700

/-- An open file, `*os.File`: its path, the flag it was opened with, and the
offset of the next write. -/
structure File where
  path : List Char
  flag : Nat
  offset : Nat
  deriving DecidableEq, Repr

/-- Go's `os.OpenFile(name, flag, perm)`: it fails with the error number of a
path at which opening is denied, opens an existing file as it is (no flag of
the program truncates), creates an empty file when `flag` holds `O_CREATE`,
and fails with `ENOENT` (2) otherwise. The access mode of the open file is the
one in `flag`; `perm` is the permission of a created file and has no part in it. -/
def OpenFile (w : World) (name : List Char) (flag : Nat) (_perm : Nat) :
    Except GoError File × World :=
  match w.denied.lookup name with
  | some errno => (Except.error (GoError.ioError errno), w)
  | none =>
    match w.files.lookup name with
    | some _ => (Except.ok ⟨name, flag, 0⟩, w)
    | none =>
      if flag / O_CREATE % 2 = 1 then
        (Except.ok ⟨name, flag, 0⟩, { w with files := w.files ++ [(name, [])] })
      else (Except.error (GoError.ioError 2), w)

/-- The content `content` put in place of that of the file at `name`. -/
def setFile (files : List (List Char × List Nat)) (name : List Char) (content : List Nat) :
    List (List Char × List Nat) :=
  files.map fun f => if f.1 = name then (f.1, content) else f

/-- The method `Write(b)` of an `*os.File`: on a file opened without write
access (access mode `O_RDONLY`) the system call fails with `EBADF` (9) and
nothing is written; else `b` is written at the offset. -/
def File.Write (f : File) (b : List Nat) (w : World) : Nat × Option GoError × File × World :=
  if f.flag % 4 = O_RDONLY then (0, some (GoError.ioError 9), f, w)
  else
    let content := (w.files.lookup f.path).getD []
    let content := content.take f.offset ++ b ++ content.drop (f.offset + b.length)
    (b.length, none, { f with offset := f.offset + b.length },
      { w with files := setFile w.files f.path content })

/-- The method `Read` of `crypto/rand.Reader` for a slice of length `len`: the
next `len` bytes of the random source `rng`. -/
def randRead (rng : Nat → Nat) (len : Nat) (w : World) : List Nat × World :=
  ((List.range len).map fun k => rng (w.randPos + k) % 256,
    { w with randPos := w.randPos + len })

/-- The loop of Go's `io.Copy` from `io.LimitReader(rand.Reader, n)` to a file,
with a buffer of `size` bytes and `remaining` the bytes the limited reader
still grants, run for at most `fuel` iterations: the count written, the error,
and the file and the world afterwards. -/
def copyLoop (rng : Nat → Nat) (size : Nat) :
    Nat → Int → File → World → Int → Option (Int × Option GoError × File × World)
  | 0, _, _, _, _ => none
  | fuel + 1, remaining, f, w, written =>
    if remaining ≤ 0 then some (written, none, f, w)
    else
      let nr := Nat.min size remaining.toNat
      match randRead rng nr w with
      | (buf, w₁) =>
        if nr > 0 then
          match f.Write buf w₁ with
          | (nw, ew, f', w₂) =>
            let written := written + (nw : Int)
            if ew ≠ none then some (written, ew, f', w₂)
            else if nr ≠ nw then some (written, some GoError.ErrShortWrite, f', w₂)
            else copyLoop rng size fuel (remaining - (nr : Int)) f' w₂ written
        else copyLoop rng size fuel (remaining - (nr : Int)) f w₁ written

/-- Go's `io.CopyN(file, rand.Reader, n)`. The buffer of `io.Copy` holds 32768
bytes, or `n` when that is less, and 1 when `n < 1`. -/
def CopyN (rng : Nat → Nat) (f : File) (n : Int) (w : World) :
    Option (Int × Option GoError × File × World) :=
  let size : Nat := if n < 32768 then (if n < 1 then 1 else n.toNat) else 32768
  match copyLoop rng size (n.toNat + 1) n f w 0 with
  | none => none
  | some (written, err, f', w') =>
    if written = n then some (n, none, f', w')
    else if written < n ∧ err = none then some (written, some GoError.EOF, f', w')
    else some (written, err, f', w')

/-! ## `generateKey` and `generateKeys` -/

/-- The function `generateKey(filePath, genSize)` of `main.go`: the error it
returns and the world afterwards. The deferred `file.Close()` changes nothing
in the world. -/
def generateKey (rng : Nat → Nat) (filePath : List Char) (genSize : Int) (w : World) :
    Option (Option GoError × World) :=
  match OpenFile w filePath O_CREATE createFilePerm with
  | (Except.error err, w₁) =>
    some (some err, { w₁ with calls := w₁.calls ++ [(filePath, genSize, some err)] })
  | (Except.ok file, w₁) =>
    match CopyN rng file genSize w₁ with
    | none => none
    | some (_, err, _, w₂) =>
      some (err, { w₂ with calls := w₂.calls ++ [(filePath, genSize, err)] })

/-- The loop `for i := genOffset; i < genCount+genOffset; i++` of
`generateKeys`, with `bound` the value of `genCount+genOffset`, run for at
most `fuel` iterations. -/
def generateKeysLoop (rng : Nat → Nat) (outputPath : List Char) (genSize bound : Int) :
    Nat → Int → World → Option (Option GoError × World)
  | 0, _, _ => none
  | fuel + 1, i, w =>
    if i < bound then
      let path := ReplaceAll outputPath placeholder (Itoa i)
      match generateKey rng path genSize w with
      | none => none
      | some (some err, w') => some (some err, w')
      | some (none, w') => generateKeysLoop rng outputPath genSize bound fuel (wrapInt64 (i + 1)) w'
    else some (none, w)

/-- The function `generateKeys()` of `main.go`, with the flags it reads as
arguments: `outputPath`, `generate`, `genCount` and `genOffset`. The sum
`genCount+genOffset` is taken in 64 bits. The loop is given one iteration more
than there are indices below the bound. -/
def generateKeys (U : UnicodeTables) (rng : Nat → Nat) (outputPath generate : List Char)
    (genCount genOffset : Int) (w : World) : Option (Option GoError × World) :=
  if outputPath = [] then some (some GoError.ErrNoOutputFile, w)
  else
    match parseSizeBytes U generate with
    | Except.error err => some (some err, w)
    | Except.ok genSize =>
      if genCount = 1 then generateKey rng outputPath genSize w
      else if !Contains placeholder outputPath then some (some GoError.ErrMissingPlaceholder, w)
      else
        let bound := wrapInt64 (genCount + genOffset)
        generateKeysLoop rng outputPath genSize bound ((bound - genOffset).toNat + 1)
          genOffset w

/-! ## The words of the specification about batches -/

/-- Whether an integer is a value of Go's `int` (64 bits). -/
def isInt64 (i : Int) : Prop := -2 ^ 63 ≤ i ∧ i ≤ 2 ^ 63 - 1

/-- The path of the key with index `idx`: every `{i}` of the template replaced
by the decimal string of `idx`. -/
def keyPath (template : List Char) (idx : Int) : List Char :=
  ReplaceAll template placeholder (Itoa idx)

/-- The record of `k` calls of `generateKey` for the indices from `offset` on,
in ascending order, each with the path of its index and the size `size`, of
which all returned no error but the last, which returned `last`. -/
def batchCalls (template : List Char) (size offset : Int) (k : Nat) (last : Option GoError) :
    List (List Char × Int × Option GoError) :=
  (List.range k).map fun (j : Nat) =>
    (keyPath template (offset + (j : Int)), size, if j + 1 = k then last else none)

/-- A world without files in which no path is denied. -/
def World.empty : World := ⟨[], [], 0, []⟩

/-- The world `w'` keeps what `w` holds apart from the random source and the
record of calls: the same denied paths, and every file of `w` still exists. -/
def World.keeps (w w' : World) : Prop :=
  w'.denied = w.denied ∧ ∀ q, (w.files.lookup q).isSome = true → (w'.files.lookup q).isSome = true

/-- The number of matches of `old` that `replaceAllFrom` replaces. -/
def replacedFrom (old : List Char) : Nat → List Char → Nat
  | _, [] => 0
  | skip + 1, _ :: cs => replacedFrom old skip cs
  | 0, c :: cs =>
    if old.isPrefixOf (c :: cs) then replacedFrom old (old.length - 1) cs + 1
    else replacedFrom old 0 cs

/-! ## Basic facts about the streams -/

theorem Reader.Read_length_le (r : Reader) (len : Nat) : (r.Read len).1.length ≤ len := by
  unfold Reader.Read
  split
  · simp
  · split
    · assumption
    · simp

theorem Reader.Read_size (r : Reader) (len : Nat) :
    (r.Read len).2.2.size + (r.Read len).1.length = r.size := by
  obtain ⟨steps⟩ := r
  cases steps with
  | nil => simp [Reader.Read, Reader.size]
  | cons s rest =>
    by_cases h : s.bytes.length ≤ len
    · simp [Reader.Read, Reader.size, h]; omega
    · simp [Reader.Read, Reader.size, h]; omega

theorem xorPrefix_length (n : Nat) (ms ks : List Nat) :
    (xorPrefix n ms ks).length = ms.length := by
  induction n generalizing ms ks with
  | zero => simp [xorPrefix]
  | succ n ih =>
    cases ms with
    | nil => simp [xorPrefix]
    | cons m ms =>
      cases ks with
      | nil => simp [xorPrefix]
      | cons k ks => simp [xorPrefix, ih]

/-! ## The model always returns -/

theorem readAtLeastLoop_isSome (min : Nat) (fuel : Nat) (r : Reader) (buf : List Nat)
    (n : Nat) (err : Option GoError) (hmin : min ≤ buf.length)
    (hfuel : (if err = none then r.weight + 2 else 1) ≤ fuel) :
    (readAtLeastLoop min fuel r buf n err).isSome = true := by
  induction fuel generalizing r buf n err with
  | zero => split at hfuel <;> omega
  | succ fuel ih =>
    unfold readAtLeastLoop
    by_cases hc : n < min ∧ err = none
    · obtain ⟨hn, he⟩ := hc
      subst he
      simp only [hn, and_self, if_true]
      simp only [if_true] at hfuel
      obtain ⟨steps⟩ := r
      cases steps with
      | nil =>
        simp only [Reader.Read]
        apply ih
        · simp; omega
        · simp; omega
      | cons s rest =>
        by_cases hs : s.bytes.length ≤ buf.length - n
        · simp only [Reader.Read, hs, if_true]
          apply ih
          · simp; omega
          · simp only [Reader.weight, List.map_cons, List.sum_cons] at hfuel
            have hw : (Reader.mk rest).weight + 2 ≤ fuel := by
              simp only [Reader.weight]; omega
            split <;> omega
        · simp only [Reader.Read, hs, if_false]
          apply ih
          · simp; omega
          · simp only [Reader.weight, List.map_cons, List.sum_cons] at hfuel
            simp only [Reader.weight, List.map_cons, List.sum_cons, List.length_drop, if_true]
            omega
    · simp [hc]

theorem ReadAtLeast_isSome (r : Reader) (buf : List Nat) (min : Nat) :
    (ReadAtLeast r buf min).isSome = true := by
  unfold ReadAtLeast
  by_cases h : buf.length < min
  · simp [h]
  · simp only [h, if_false]
    have hl := readAtLeastLoop_isSome min (r.weight + 2) r buf 0 none (by omega) (by simp)
    obtain ⟨⟨n, err, r', buf'⟩, hv⟩ := Option.isSome_iff_exists.mp hl
    rw [hv]
    simp only
    split
    · rfl
    · split <;> rfl

theorem xorLoop_isSome (fuel : Nat) (key input : Reader) (output : Writer)
    (msgBuf keyBuf : List Nat) (written : Nat) (hbuf : 0 < msgBuf.length)
    (hfuel : input.size < fuel) :
    (xorLoop fuel key input output msgBuf keyBuf written).isSome = true := by
  induction fuel generalizing key input output msgBuf keyBuf written with
  | zero => omega
  | succ fuel ih =>
    unfold xorLoop
    have hlen := Reader.Read_length_le input msgBuf.length
    have hsize := Reader.Read_size input msgBuf.length
    rcases hread : input.Read msgBuf.length with ⟨bs, msgErr, input'⟩
    rw [hread] at hlen hsize
    simp only at hlen hsize ⊢
    split
    · rfl
    · have hk := ReadAtLeast_isSome key keyBuf bs.length
      obtain ⟨⟨kn, keyErr, key', keyBuf'⟩, hv⟩ := Option.isSome_iff_exists.mp hk
      rw [hv]
      simp only
      split
      · split <;> rfl
      · rcases hw : output.Write
          (List.take bs.length (xorPrefix bs.length (bs ++ List.drop bs.length msgBuf) keyBuf'))
          with ⟨w, err, output'⟩
        simp only
        split
        · rfl
        · split
          · rfl
          · rename_i hn
            simp only [xorPrefix_length, List.length_append, List.length_drop] at hn
            apply ih
            · simp only [xorPrefix_length, List.length_append, List.length_drop]; omega
            · omega

/-- The model of `xorStreams` returns a result for all streams: the iteration
bounds it is given are never reached. -/
theorem xorStreams_isSome (key input : Reader) (output : Writer) :
    (xorStreams key input output).isSome = true := by
  unfold xorStreams
  apply xorLoop_isSome
  · simp only [List.length_replicate, bufferSize]; omega
  · omega

/-! ## Streams that fill each read -/

theorem Reader.ofBytes_nil : Reader.ofBytes [] = ⟨[]⟩ := rfl

theorem Reader.ofBytes_of_ne_nil {data : List Nat} (h : data ≠ []) :
    Reader.ofBytes data = ⟨[⟨data, none⟩]⟩ := by
  cases data with
  | nil => exact absurd rfl h
  | cons b bs => rfl

theorem Reader.weight_ofBytes (data : List Nat) :
    (Reader.ofBytes data).weight = if data = [] then 0 else data.length + 1 := by
  cases data with
  | nil => rfl
  | cons b bs => simp [Reader.ofBytes, Reader.weight]

theorem Reader.size_ofBytes (data : List Nat) : (Reader.ofBytes data).size = data.length := by
  cases data with
  | nil => rfl
  | cons b bs => simp [Reader.ofBytes, Reader.size]

theorem Reader.remaining_ofBytes (data : List Nat) : (Reader.ofBytes data).remaining = data := by
  cases data with
  | nil => rfl
  | cons b bs => simp [Reader.ofBytes, Reader.remaining]

/-- A read of a stream that fills each read takes the next `len` bytes, or all
that remain, and reports `io.EOF` only when nothing remained. -/
theorem Reader.Read_ofBytes (data : List Nat) (len : Nat) :
    (Reader.ofBytes data).Read len =
      (data.take len, if data = [] then some GoError.EOF else none,
        Reader.ofBytes (data.drop len)) := by
  by_cases hd : data = []
  · subst hd
    simp [Reader.ofBytes, Reader.Read]
  · rw [Reader.ofBytes_of_ne_nil hd]
    by_cases hl : data.length ≤ len
    · simp [Reader.Read, hl, hd, List.take_of_length_le hl, List.drop_of_length_le hl,
        Reader.ofBytes]
    · have hne : List.drop len data ≠ [] := by
        intro h
        have := congrArg List.length h
        simp at this
        omega
      simp [Reader.Read, hl, hd, Reader.ofBytes_of_ne_nil hne]

theorem readAtLeastLoop_stop (min fuel : Nat) (r : Reader) (buf : List Nat) (n : Nat)
    (err : Option GoError) (h : ¬ (n < min ∧ err = none)) :
    readAtLeastLoop min (fuel + 1) r buf n err = some (n, err, r, buf) := by
  simp only [readAtLeastLoop, h, if_false]

theorem readAtLeastLoop_step (min fuel : Nat) (r : Reader) (buf : List Nat) (n : Nat)
    (h : n < min) :
    readAtLeastLoop min (fuel + 1) r buf n none =
      readAtLeastLoop min fuel (r.Read (buf.length - n)).2.2
        (buf.take n ++ (r.Read (buf.length - n)).1 ++
          buf.drop (n + (r.Read (buf.length - n)).1.length))
        (n + (r.Read (buf.length - n)).1.length) (r.Read (buf.length - n)).2.1 := by
  simp only [readAtLeastLoop, h, and_self, if_true]

/-- With `min = 0` the loop of `io.ReadAtLeast` calls `Read` not once. -/
theorem ReadAtLeast_zero (r : Reader) (buf : List Nat) :
    ReadAtLeast r buf 0 = some (0, none, r, buf) := by
  simp [ReadAtLeast, readAtLeastLoop_stop]

/-- When the stream still holds `min` bytes, one `Read` of the whole buffer
serves `io.ReadAtLeast`: it takes as many bytes as the buffer holds, not `min`. -/
theorem ReadAtLeast_ofBytes_ok (K buf : List Nat) (c : Nat) (hc : 0 < c)
    (hbuf : c ≤ buf.length) (hK : c ≤ K.length) :
    ReadAtLeast (Reader.ofBytes K) buf c =
      some (Nat.min buf.length K.length, none, Reader.ofBytes (K.drop buf.length),
        K.take buf.length ++ buf.drop (Nat.min buf.length K.length)) := by
  have hKne : K ≠ [] := by
    intro h; subst h; simp at hK; omega
  have hw : (Reader.ofBytes K).weight + 2 = (K.length + 1) + 1 + 1 := by
    rw [Reader.weight_ofBytes]; simp [hKne]
  unfold ReadAtLeast
  rw [if_neg (by omega), hw, readAtLeastLoop_step _ _ _ _ _ hc, Reader.Read_ofBytes]
  simp only [hKne, if_false, Nat.sub_zero, List.take_zero, List.nil_append, Nat.zero_add,
    List.length_take]
  rw [readAtLeastLoop_stop]
  · simp only [Nat.min_def]
    split <;> simp
  · simp only [Nat.min_def]
    split <;> omega

/-- When the stream holds fewer than `min` bytes, `io.ReadAtLeast` drains it
and fails with `io.EOF` or `io.ErrUnexpectedEOF`. -/
theorem ReadAtLeast_ofBytes_short (K buf : List Nat) (c : Nat)
    (hbuf : c ≤ buf.length) (hK : K.length < c) :
    ∃ n e kb, ReadAtLeast (Reader.ofBytes K) buf c = some (n, some e, ⟨[]⟩, kb) ∧
      (e = GoError.EOF ∨ e = GoError.ErrUnexpectedEOF) := by
  unfold ReadAtLeast
  rw [if_neg (by omega)]
  by_cases hKne : K = []
  · subst hKne
    have hw : (Reader.ofBytes []).weight + 2 = 0 + 1 + 1 := rfl
    rw [hw, readAtLeastLoop_step _ _ _ _ _ (by omega), Reader.Read_ofBytes]
    simp only [if_true, List.take_nil, List.length_nil, Nat.add_zero, List.drop_nil]
    rw [readAtLeastLoop_stop _ _ _ _ _ _ (by simp)]
    have h1 : ¬ (0 ≥ c) := by
      simp only [List.length_nil] at hK; omega
    simp only [h1, if_false, Nat.lt_irrefl, false_and, Reader.ofBytes_nil]
    exact ⟨_, _, _, rfl, Or.inl rfl⟩
  · have hw : (Reader.ofBytes K).weight + 2 = (K.length + 1) + 1 + 1 := by
      rw [Reader.weight_ofBytes]; simp [hKne]
    have hpos : 0 < K.length := List.length_pos.mpr hKne
    rw [hw, readAtLeastLoop_step _ _ _ _ _ (by omega), Reader.Read_ofBytes]
    simp only [hKne, if_false, Nat.sub_zero, List.take_zero, List.nil_append, Nat.zero_add,
      List.length_take]
    have hmin : Nat.min buf.length K.length = K.length := Nat.min_eq_right (by omega)
    have hmin2 : min buf.length K.length = K.length := hmin
    rw [hmin2, List.drop_of_length_le (by omega : K.length ≤ buf.length), Reader.ofBytes_nil,
      readAtLeastLoop_step _ _ _ _ _ (by omega)]
    simp only [Reader.Read, List.length_nil, Nat.add_zero, List.append_nil]
    rw [readAtLeastLoop_stop _ _ _ _ _ _ (by simp)]
    have h1 : ¬ (K.length ≥ c) := by omega
    simp only [h1, if_false, hpos, true_and, if_true]
    exact ⟨_, _, _, rfl, Or.inr rfl⟩

/-! ## One iteration of the loop of `xorStreams` -/

theorem bufferSize_pos : 0 < bufferSize := by decide

theorem Writer.Write_nil (w : Writer) : w.Write [] = (0, none, w) := by
  obtain ⟨out, room⟩ := w
  cases room with
  | none => simp [Writer.Write]
  | some ke => simp [Writer.Write]

theorem Writer.Write_unbounded (o p : List Nat) :
    (Writer.unbounded o).Write p = (p.length, none, Writer.unbounded (o ++ p)) := rfl

theorem zipWith_append_right_of_le {α β γ : Type} (f : α → β → γ) (as : List α)
    (bs cs : List β) (h : as.length ≤ bs.length) :
    List.zipWith f as (bs ++ cs) = List.zipWith f as bs := by
  induction as generalizing bs with
  | nil => simp
  | cons a as ih =>
    cases bs with
    | nil => simp at h
    | cons b bs =>
      simp only [List.cons_append, List.zipWith_cons_cons, List.cons.injEq, true_and]
      exact ih bs (by simpa using h)

theorem xorPrefix_take (n : Nat) (ms ks : List Nat) (h : n ≤ ks.length) :
    (xorPrefix n ms ks).take n = List.zipWith (· ^^^ ·) (ms.take n) ks := by
  induction n generalizing ms ks with
  | zero => simp
  | succ n ih =>
    cases ks with
    | nil => simp at h
    | cons k ks =>
      cases ms with
      | nil => simp [xorPrefix]
      | cons m ms =>
        simp only [xorPrefix, List.take_succ_cons, List.zipWith_cons_cons, List.cons.injEq,
          true_and]
        exact ih ms ks (by simpa using h)

/-- On an exhausted input the loop ends at once: nothing is read from the key
and nothing is written. -/
theorem xorLoop_input_done (fuel : Nat) (key : Reader) (output : Writer)
    (msgBuf keyBuf : List Nat) (written : Nat) (hbuf : 0 < msgBuf.length) :
    xorLoop (fuel + 1) key ⟨[]⟩ output msgBuf keyBuf written =
      some ⟨written, none, key, ⟨[]⟩, output⟩ := by
  rw [xorLoop]
  simp only [Reader.Read, List.length_nil, List.drop_zero, List.nil_append, ne_eq,
    not_true_eq_false, and_false, if_false, ReadAtLeast_zero, xorPrefix, List.take_zero,
    Writer.Write_nil, Nat.add_zero, hbuf, if_true]

theorem zipWith_take_right_of_le {α β γ : Type} (f : α → β → γ) (as : List α)
    (bs : List β) (L : Nat) (h : as.length ≤ L) :
    List.zipWith f as (bs.take L) = List.zipWith f as bs := by
  by_cases hL : L ≤ bs.length
  · conv_rhs => rw [← List.take_append_drop L bs]
    rw [zipWith_append_right_of_le]
    simp only [List.length_take]
    omega
  · rw [List.take_of_length_le (by omega)]

/-- The bytes an iteration writes: the bytes read from the input, each XORed
with the key byte at the same place. -/
theorem xorPrefix_chunk (bs K rest rest2 : List Nat) (L : Nat) (hK : bs.length ≤ K.length)
    (hL : bs.length ≤ L) :
    List.take bs.length (xorPrefix bs.length (bs ++ rest) (K.take L ++ rest2)) =
      List.zipWith (· ^^^ ·) bs K := by
  rw [xorPrefix_take]
  · rw [List.take_left, zipWith_append_right_of_le, zipWith_take_right_of_le _ _ _ _ hL]
    simp only [List.length_take]
    omega
  · simp only [List.length_append, List.length_take]
    omega

/-- The last iteration on an input that fills each read: fewer bytes than the
buffer holds remain, the key has at least as many, and the loop returns. -/
theorem xorLoop_last (fuel : Nat) (K P o msgBuf keyBuf : List Nat) (written : Nat)
    (hmb : msgBuf.length = bufferSize) (hkb : keyBuf.length = bufferSize)
    (hP0 : 0 < P.length) (hP : P.length < bufferSize) (hK : P.length ≤ K.length) :
    xorLoop (fuel + 1) (Reader.ofBytes K) (Reader.ofBytes P) (Writer.unbounded o)
        msgBuf keyBuf written =
      some ⟨written + P.length, none, Reader.ofBytes (K.drop bufferSize), ⟨[]⟩,
        Writer.unbounded (o ++ List.zipWith (· ^^^ ·) P K)⟩ := by
  have hPne : P ≠ [] := List.length_pos.mp hP0
  have htake : List.take bufferSize P = P := List.take_of_length_le (by omega)
  have hdrop : List.drop bufferSize P = [] := List.drop_of_length_le (by omega)
  rw [xorLoop, hmb, Reader.Read_ofBytes]
  simp only [hPne, if_false, htake, hdrop, ne_eq, not_true_eq_false, false_and]
  rw [ReadAtLeast_ofBytes_ok K keyBuf P.length hP0 (by omega) hK]
  simp only [not_true_eq_false, if_false, Writer.Write_unbounded, xorPrefix_length,
    List.length_append, List.length_drop, hmb, hkb]
  rw [xorPrefix_chunk P K _ _ bufferSize hK (by omega)]
  have hlt : P.length < P.length + (bufferSize - P.length) := by omega
  simp only [hlt, if_true, List.length_zipWith, Reader.ofBytes_nil]
  rw [Nat.min_eq_left hK]

/-- An iteration on a full buffer of input with a full buffer of key: both
streams advance by `bufferSize` bytes, the XOR of the two buffers is written,
and the loop goes on with buffers of the same length. -/
theorem xorLoop_full (fuel : Nat) (K P o msgBuf keyBuf : List Nat) (written : Nat)
    (hmb : msgBuf.length = bufferSize) (hkb : keyBuf.length = bufferSize)
    (hP : bufferSize ≤ P.length) (hK : bufferSize ≤ K.length) :
    ∃ msgBuf' keyBuf', msgBuf'.length = bufferSize ∧ keyBuf'.length = bufferSize ∧
      xorLoop (fuel + 1) (Reader.ofBytes K) (Reader.ofBytes P) (Writer.unbounded o)
          msgBuf keyBuf written =
        xorLoop fuel (Reader.ofBytes (K.drop bufferSize)) (Reader.ofBytes (P.drop bufferSize))
          (Writer.unbounded (o ++ List.zipWith (· ^^^ ·) (P.take bufferSize) K))
          msgBuf' keyBuf' (written + bufferSize) := by
  have hpos := bufferSize_pos
  have hPne : P ≠ [] := List.length_pos.mp (by omega)
  have hlen : (List.take bufferSize P).length = bufferSize := by
    simp only [List.length_take]; omega
  refine ⟨xorPrefix bufferSize (P.take bufferSize ++ msgBuf.drop bufferSize)
      (K.take bufferSize ++ keyBuf.drop (Nat.min bufferSize K.length)),
    K.take bufferSize ++ keyBuf.drop (Nat.min bufferSize K.length), ?_, ?_, ?_⟩
  · simp only [xorPrefix_length, List.length_append, List.length_take, List.length_drop]
    omega
  · simp only [List.length_append, List.length_take, List.length_drop, Nat.min_def]
    split <;> omega
  · rw [xorLoop, hmb, Reader.Read_ofBytes]
    simp only [hPne, if_false, ne_eq, not_true_eq_false, false_and, hlen]
    rw [ReadAtLeast_ofBytes_ok K keyBuf bufferSize hpos (by omega) hK]
    simp only [not_true_eq_false, if_false, Writer.Write_unbounded, xorPrefix_length,
      List.length_append, List.length_drop, hmb, hkb, hlen]
    have hchunk := xorPrefix_chunk (P.take bufferSize) K (msgBuf.drop bufferSize)
      (keyBuf.drop (Nat.min bufferSize K.length)) bufferSize (by omega) (by omega)
    rw [hlen] at hchunk
    rw [hchunk]
    have hnlt : ¬ (bufferSize < bufferSize + (bufferSize - bufferSize)) := by omega
    simp only [hnlt, if_false, List.length_zipWith, hlen]
    rw [Nat.min_eq_left hK]

/-- An iteration in which the key holds fewer bytes than were read from the
input: the loop returns `ErrKeyTooShort` and writes nothing more. -/
theorem xorLoop_short_key (fuel : Nat) (K P msgBuf keyBuf : List Nat) (output : Writer)
    (written : Nat) (hmb : msgBuf.length = bufferSize) (hkb : keyBuf.length = bufferSize)
    (hK : K.length < Nat.min bufferSize P.length) :
    xorLoop (fuel + 1) (Reader.ofBytes K) (Reader.ofBytes P) output msgBuf keyBuf written =
      some ⟨written, some GoError.ErrKeyTooShort, ⟨[]⟩, Reader.ofBytes (P.drop bufferSize),
        output⟩ := by
  have hPne : P ≠ [] := by
    intro h; subst h; simp at hK
  have hlen : (List.take bufferSize P).length = Nat.min bufferSize P.length := by
    simp only [List.length_take]
  have hle : Nat.min bufferSize P.length ≤ bufferSize := Nat.min_le_left _ _
  rw [xorLoop, hmb, Reader.Read_ofBytes]
  simp only [hPne, if_false, ne_eq, not_true_eq_false, false_and, hlen]
  obtain ⟨n, e, kb, hrd, he⟩ := ReadAtLeast_ofBytes_short K keyBuf (Nat.min bufferSize P.length)
    (by omega) hK
  rw [hrd]
  rcases he with he | he <;> subst he <;> simp

/-! ## The whole loop on streams that fill each read -/

theorem zipWith_take_append_drop {α β γ : Type} (f : α → β → γ) (as : List α)
    (bs : List β) (L : Nat) :
    List.zipWith f (as.take L) bs ++ List.zipWith f (as.drop L) (bs.drop L) =
      List.zipWith f as bs := by
  rw [← zipWith_take_right_of_le f (as.take L) bs L (by simp [List.length_take]),
    ← List.take_zipWith, ← List.drop_zipWith, List.take_append_drop]

/-- The whole loop when the key is at least as long as the input: it returns
the count of the input bytes, leaves the key after the last buffer read from
it, and has written the input XOR the key. -/
theorem xorLoop_ok (fuel : Nat) (K P o msgBuf keyBuf : List Nat) (written : Nat)
    (hmb : msgBuf.length = bufferSize) (hkb : keyBuf.length = bufferSize)
    (hK : P.length ≤ K.length) (hfuel : P.length < fuel) :
    xorLoop fuel (Reader.ofBytes K) (Reader.ofBytes P) (Writer.unbounded o)
        msgBuf keyBuf written =
      some ⟨written + P.length, none, Reader.ofBytes (K.drop (keyBytesRead P.length)), ⟨[]⟩,
        Writer.unbounded (o ++ List.zipWith (· ^^^ ·) P K)⟩ := by
  induction fuel generalizing K P o msgBuf keyBuf written with
  | zero => omega
  | succ fuel ih =>
    by_cases hP0 : P = []
    · subst hP0
      rw [Reader.ofBytes_nil, xorLoop_input_done _ _ _ _ _ _ (by rw [hmb]; exact bufferSize_pos)]
      simp [keyBytesRead, bufferSize]
    · have hpos : 0 < P.length := List.length_pos.mpr hP0
      by_cases hP : P.length < bufferSize
      · rw [xorLoop_last fuel K P o msgBuf keyBuf written hmb hkb hpos hP hK]
        have hk : keyBytesRead P.length = bufferSize := by
          simp only [keyBytesRead, bufferSize] at hP ⊢
          omega
        rw [hk]
      · obtain ⟨mb', kb', hmb', hkb', hstep⟩ :=
          xorLoop_full fuel K P o msgBuf keyBuf written hmb hkb (by omega) (by omega)
        rw [hstep, ih (K.drop bufferSize) (P.drop bufferSize) _ mb' kb' _ hmb' hkb'
          (by simp only [List.length_drop]; omega)
          (by simp only [List.length_drop]; have := bufferSize_pos; omega)]
        have hk : bufferSize + keyBytesRead (P.length - bufferSize) = keyBytesRead P.length := by
          simp only [keyBytesRead, bufferSize] at hP ⊢
          omega
        simp only [List.length_drop, List.drop_drop, hk, List.append_assoc,
          zipWith_take_append_drop]
        have hw : written + bufferSize + (P.length - bufferSize) = written + P.length := by omega
        rw [hw]

/-- The whole loop when the key is shorter than the input: the whole buffers
that the key covers are written, then the loop returns `ErrKeyTooShort`. -/
theorem xorLoop_key_short (fuel : Nat) (K P o msgBuf keyBuf : List Nat) (written : Nat)
    (hmb : msgBuf.length = bufferSize) (hkb : keyBuf.length = bufferSize)
    (hK : K.length < P.length) (hfuel : P.length < fuel) :
    xorLoop fuel (Reader.ofBytes K) (Reader.ofBytes P) (Writer.unbounded o)
        msgBuf keyBuf written =
      some ⟨written + bufferSize * (K.length / bufferSize), some GoError.ErrKeyTooShort, ⟨[]⟩,
        Reader.ofBytes (P.drop (bufferSize * (K.length / bufferSize) + bufferSize)),
        Writer.unbounded
          (o ++ List.zipWith (· ^^^ ·) (P.take (bufferSize * (K.length / bufferSize))) K)⟩ := by
  induction fuel generalizing K P o msgBuf keyBuf written with
  | zero => omega
  | succ fuel ih =>
    by_cases hKs : K.length < bufferSize
    · rw [xorLoop_short_key fuel K P msgBuf keyBuf _ written hmb hkb
        (by simp only [Nat.min_def]; split <;> omega)]
      have hz : K.length / bufferSize = 0 := Nat.div_eq_of_lt hKs
      simp [hz, Writer.unbounded]
    · obtain ⟨mb', kb', hmb', hkb', hstep⟩ :=
        xorLoop_full fuel K P o msgBuf keyBuf written hmb hkb (by omega) (by omega)
      rw [hstep, ih (K.drop bufferSize) (P.drop bufferSize) _ mb' kb' _ hmb' hkb'
        (by simp only [List.length_drop]; omega)
        (by simp only [List.length_drop]; have := bufferSize_pos; omega)]
      have hd : bufferSize + bufferSize * ((K.length - bufferSize) / bufferSize) =
          bufferSize * (K.length / bufferSize) := by
        simp only [bufferSize] at hKs ⊢
        omega
      have hout : List.zipWith (· ^^^ ·) (P.take bufferSize) K ++
          List.zipWith (· ^^^ ·)
            ((P.drop bufferSize).take (bufferSize * ((K.length - bufferSize) / bufferSize)))
            (K.drop bufferSize) =
          List.zipWith (· ^^^ ·) (P.take (bufferSize * (K.length / bufferSize))) K := by
        rw [← hd, ← zipWith_take_append_drop _
          (P.take (bufferSize + bufferSize * ((K.length - bufferSize) / bufferSize))) K bufferSize,
          List.take_take, List.drop_take]
        have h1 : bufferSize ⊓
            (bufferSize + bufferSize * ((K.length - bufferSize) / bufferSize)) = bufferSize :=
          Nat.min_eq_left (Nat.le_add_right _ _)
        have h2 : bufferSize + bufferSize * ((K.length - bufferSize) / bufferSize) - bufferSize =
            bufferSize * ((K.length - bufferSize) / bufferSize) := Nat.add_sub_cancel_left _ _
        rw [h1, h2]
      simp only [List.length_drop, List.drop_drop, List.append_assoc, hout]
      have hw : written + bufferSize + bufferSize * ((K.length - bufferSize) / bufferSize) =
          written + bufferSize * (K.length / bufferSize) := by omega
      have hi : bufferSize + (bufferSize * ((K.length - bufferSize) / bufferSize) + bufferSize) =
          bufferSize * (K.length / bufferSize) + bufferSize := by omega
      rw [hw, hi]

/-- A read of the input that is short although more input is pending: the loop
takes it for the end of the input and returns. -/
theorem xorLoop_short_read (fuel : Nat) (K bs o msgBuf keyBuf : List Nat)
    (rest : List ReadStep) (written : Nat)
    (hmb : msgBuf.length = bufferSize) (hkb : keyBuf.length = bufferSize)
    (h0 : 0 < bs.length) (hlt : bs.length < bufferSize) (hK : bs.length ≤ K.length) :
    xorLoop (fuel + 1) (Reader.ofBytes K) ⟨⟨bs, none⟩ :: rest⟩ (Writer.unbounded o)
        msgBuf keyBuf written =
      some ⟨written + bs.length, none, Reader.ofBytes (K.drop bufferSize), ⟨rest⟩,
        Writer.unbounded (o ++ List.zipWith (· ^^^ ·) bs K)⟩ := by
  have hle : bs.length ≤ bufferSize := by omega
  rw [xorLoop, hmb]
  simp only [Reader.Read, hle, if_true, ne_eq, not_true_eq_false, false_and, if_false]
  rw [ReadAtLeast_ofBytes_ok K keyBuf bs.length h0 (by omega) hK]
  simp only [not_true_eq_false, if_false, Writer.Write_unbounded, xorPrefix_length,
    List.length_append, List.length_drop, hmb, hkb]
  rw [xorPrefix_chunk bs K _ _ bufferSize hK (by omega)]
  have hlt2 : bs.length < bs.length + (bufferSize - bs.length) := by omega
  simp only [hlt2, if_true, List.length_zipWith]
  rw [Nat.min_eq_left hK]

/-- The XOR of two bytes is a byte. -/
theorem xor_byte_lt (a b : Nat) (ha : a < 256) (hb : b < 256) : a ^^^ b < 256 :=
  Nat.xor_lt_two_pow (n := 8) ha hb

theorem zipWith_xor_cancel (P K : List Nat) (h : P.length ≤ K.length) :
    List.zipWith (· ^^^ ·) (List.zipWith (· ^^^ ·) P K) K = P := by
  induction P generalizing K with
  | nil => simp
  | cons p P ih =>
    cases K with
    | nil => simp at h
    | cons k K =>
      simp only [List.zipWith_cons_cons, Nat.xor_cancel_right, List.cons.injEq, true_and]
      exact ih K (by simpa using h)

theorem getElem?_zipWith_xor (P K : List Nat) (i : Nat) (hi : i < P.length)
    (h : P.length ≤ K.length) :
    ∃ p k, P[i]? = some p ∧ K[i]? = some k ∧
      (List.zipWith (· ^^^ ·) P K)[i]? = some (p ^^^ k) := by
  have hk : i < K.length := by omega
  refine ⟨P[i], K[i], List.getElem?_eq_getElem hi, List.getElem?_eq_getElem hk, ?_⟩
  rw [List.getElem?_eq_getElem (by simp only [List.length_zipWith]; omega)]
  simp

/-! ## The properties of `xorStreams` -/

/-- C1: for an input `P` of `n` bytes and a key `K` of `m ≥ n` bytes, both on
streams that fill each read, `xorStreams` returns, without error, the count
`n`, and has written exactly `n` bytes, the `i`-th being `P[i] XOR K[i]`. -/
theorem xorStreams_writes_xor (P K out : List Nat) (h : P.length ≤ K.length) :
    ∃ r W, xorStreams (Reader.ofBytes K) (Reader.ofBytes P) (Writer.unbounded out) = some r ∧
      r.err = none ∧ r.written = P.length ∧ r.output.out = out ++ W ∧
      W.length = P.length ∧
      ∀ i, i < P.length → ∃ p k, P[i]? = some p ∧ K[i]? = some k ∧ W[i]? = some (p ^^^ k) := by
  have hrun := xorLoop_ok ((Reader.ofBytes P).size + 1) K P out _ _ 0
    (List.length_replicate bufferSize 0) (List.length_replicate bufferSize 0) h
    (by rw [Reader.size_ofBytes]; omega)
  refine ⟨_, List.zipWith (· ^^^ ·) P K, hrun, rfl, ?_, rfl, ?_, ?_⟩
  · simp
  · simp only [List.length_zipWith]; omega
  · intro i hi
    exact getElem?_zipWith_xor P K i hi h

theorem xorStreams_writes_xor_witness :
    ∃ r W, xorStreams (Reader.ofBytes [5, 6, 7]) (Reader.ofBytes [1, 2]) (Writer.unbounded []) =
        some r ∧
      r.err = none ∧ r.written = [1, 2].length ∧ r.output.out = [] ++ W ∧
      W.length = [1, 2].length ∧
      ∀ i, i < [1, 2].length →
        ∃ p k, [1, 2][i]? = some p ∧ [5, 6, 7][i]? = some k ∧ W[i]? = some (p ^^^ k) :=
  xorStreams_writes_xor [1, 2] [5, 6, 7] [] (by decide)

/-- C2: for an input `P` of `n` bytes and a key `K` of `m < n` bytes, both on
streams that fill each read, `xorStreams` returns `ErrKeyTooShort`, and what
it has written is exactly the first `4096 * floor(m / 4096)` bytes of `P XOR K`:
the whole buffers before the key ran out, and nothing of the buffer in which
it ran out. -/
theorem xorStreams_key_too_short (P K out : List Nat) (h : K.length < P.length) :
    ∃ r, xorStreams (Reader.ofBytes K) (Reader.ofBytes P) (Writer.unbounded out) = some r ∧
      r.err = some GoError.ErrKeyTooShort ∧
      r.output.out = out ++ (List.zipWith (· ^^^ ·) P K).take (4096 * (K.length / 4096)) ∧
      ((List.zipWith (· ^^^ ·) P K).take (4096 * (K.length / 4096))).length =
        4096 * (K.length / 4096) := by
  have hrun := xorLoop_key_short ((Reader.ofBytes P).size + 1) K P out _ _ 0
    (List.length_replicate bufferSize 0) (List.length_replicate bufferSize 0) h
    (by rw [Reader.size_ofBytes]; omega)
  refine ⟨_, hrun, rfl, ?_, ?_⟩
  · have hb : bufferSize = 4096 := rfl
    simp only [Writer.unbounded, hb]
    rw [List.take_zipWith, zipWith_take_right_of_le _ _ _ _ (by simp [List.length_take])]
  · simp only [List.length_take, List.length_zipWith]
    omega

theorem xorStreams_key_too_short_witness :
    ∃ r, xorStreams (Reader.ofBytes (List.replicate 4097 3))
        (Reader.ofBytes (List.replicate 5000 1)) (Writer.unbounded []) = some r ∧
      r.err = some GoError.ErrKeyTooShort ∧
      r.output.out =
        [] ++ (List.zipWith (· ^^^ ·) (List.replicate 5000 1) (List.replicate 4097 3)).take
          (4096 * ((List.replicate 4097 3).length / 4096)) ∧
      ((List.zipWith (· ^^^ ·) (List.replicate 5000 1) (List.replicate 4097 3)).take
          (4096 * ((List.replicate 4097 3).length / 4096))).length =
        4096 * ((List.replicate 4097 3).length / 4096) :=
  xorStreams_key_too_short (List.replicate 5000 1) (List.replicate 4097 3) []
    (by simp only [List.length_replicate]; decide)

/-- C3: involution. For a plaintext `P` and a key `K` at least as long, running
`xorStreams` with `K` on the output of `xorStreams` with `K` on `P` succeeds
and writes `P` again. -/
theorem xorStreams_involution (P K : List Nat) (h : P.length ≤ K.length) :
    ∃ r₁ r₂,
      xorStreams (Reader.ofBytes K) (Reader.ofBytes P) (Writer.unbounded []) = some r₁ ∧
      r₁.err = none ∧
      xorStreams (Reader.ofBytes K) (Reader.ofBytes r₁.output.out) (Writer.unbounded []) =
        some r₂ ∧
      r₂.err = none ∧ r₂.output.out = P := by
  have hlen : (List.zipWith (· ^^^ ·) P K).length ≤ K.length := by
    simp only [List.length_zipWith]; omega
  have hrun₁ := xorLoop_ok ((Reader.ofBytes P).size + 1) K P [] _ _ 0
    (List.length_replicate bufferSize 0) (List.length_replicate bufferSize 0) h
    (by rw [Reader.size_ofBytes]; omega)
  have hrun₂ := xorLoop_ok ((Reader.ofBytes (List.zipWith (· ^^^ ·) P K)).size + 1) K
    (List.zipWith (· ^^^ ·) P K) [] _ _ 0
    (List.length_replicate bufferSize 0) (List.length_replicate bufferSize 0) hlen
    (by rw [Reader.size_ofBytes]; omega)
  rw [zipWith_xor_cancel P K h] at hrun₂
  exact ⟨_, _, hrun₁, rfl, hrun₂, rfl, rfl⟩

theorem xorStreams_involution_witness :
    ∃ r₁ r₂,
      xorStreams (Reader.ofBytes [5, 6, 7]) (Reader.ofBytes [1, 2]) (Writer.unbounded []) =
        some r₁ ∧
      r₁.err = none ∧
      xorStreams (Reader.ofBytes [5, 6, 7]) (Reader.ofBytes r₁.output.out)
        (Writer.unbounded []) = some r₂ ∧
      r₂.err = none ∧ r₂.output.out = [1, 2] :=
  xorStreams_involution [1, 2] [5, 6, 7] (by decide)

/-- C4: at the input that delivers the byte 1 in a first read and the byte 2 in
a second, with the key 5, 6, `xorStreams` returns success with the count 1
after writing the one byte `1 XOR 5`: the byte 2 is still pending on the input
and is never transformed. -/
theorem xorStreams_short_input_read :
    xorStreams (Reader.ofBytes [5, 6]) (Reader.ofChunks [[1], [2]]) (Writer.unbounded []) =
      some ⟨1, none, ⟨[]⟩, Reader.ofChunks [[2]], Writer.unbounded [4]⟩ := by
  have hrun := xorLoop_short_read 2 [5, 6] [1] []
    (List.replicate bufferSize 0) (List.replicate bufferSize 0) [⟨[2], none⟩] 0
    (List.length_replicate bufferSize 0) (List.length_replicate bufferSize 0)
    (by decide) (by decide) (by decide)
  have hd : List.drop bufferSize ([5, 6] : List Nat) = [] := by decide
  rw [hd] at hrun
  exact hrun

/-- C5, as stated, fails: with the input 1 (one byte) and the key 5, 6, a
successful run leaves the key stream at its end, at position 2 and not 1. -/
theorem xorStreams_key_position_counterexample :
    ∃ r, xorStreams (Reader.ofBytes [5, 6]) (Reader.ofBytes [1]) (Writer.unbounded []) = some r ∧
      r.err = none ∧ r.key.remaining = [] ∧ r.key.remaining ≠ List.drop [1].length [5, 6] := by
  have hrun := xorLoop_ok ((Reader.ofBytes [1]).size + 1) [5, 6] [1] [] _ _ 0
    (List.length_replicate bufferSize 0) (List.length_replicate bufferSize 0)
    (by decide) (by decide)
  have hd : List.drop (keyBytesRead [1].length) ([5, 6] : List Nat) = [] := by decide
  rw [hd] at hrun
  exact ⟨_, hrun, rfl, rfl, by decide⟩

/-- C5, amended: for an input of `n` bytes and a key `K` of `m ≥ n` bytes, both
on streams that fill each read, a successful `xorStreams` leaves the key
stream at position `min m (4096 * ceil(n / 4096))`: every iteration with input
reads a whole buffer of key, as far as the key reaches. The position is `n`
when `n` is a multiple of 4096 or `m = n`. -/
theorem xorStreams_key_position (P K out : List Nat) (h : P.length ≤ K.length) :
    ∃ r, xorStreams (Reader.ofBytes K) (Reader.ofBytes P) (Writer.unbounded out) = some r ∧
      r.err = none ∧
      r.key.remaining = K.drop (Nat.min K.length (4096 * ((P.length + 4095) / 4096))) ∧
      (P.length % 4096 = 0 ∨ K.length = P.length → r.key.remaining = K.drop P.length) := by
  have hrun := xorLoop_ok ((Reader.ofBytes P).size + 1) K P out _ _ 0
    (List.length_replicate bufferSize 0) (List.length_replicate bufferSize 0) h
    (by rw [Reader.size_ofBytes]; omega)
  have hk : keyBytesRead P.length = 4096 * ((P.length + 4095) / 4096) := rfl
  refine ⟨_, hrun, rfl, ?_, ?_⟩
  · simp only [Reader.remaining_ofBytes, hk, Nat.min_def]
    split
    · rw [List.drop_of_length_le (by assumption), List.drop_of_length_le (Nat.le_refl _)]
    · rfl
  · intro hcase
    simp only [Reader.remaining_ofBytes, hk]
    rcases hcase with hmod | heq
    · have : 4096 * ((P.length + 4095) / 4096) = P.length := by omega
      rw [this]
    · rw [List.drop_of_length_le (by omega), List.drop_of_length_le (by omega)]

theorem xorStreams_key_position_witness :
    ∃ r, xorStreams (Reader.ofBytes [5, 6]) (Reader.ofBytes [1]) (Writer.unbounded []) = some r ∧
      r.err = none ∧
      r.key.remaining =
        List.drop (Nat.min [5, 6].length (4096 * (([1].length + 4095) / 4096))) [5, 6] ∧
      ([1].length % 4096 = 0 ∨ [5, 6].length = [1].length →
        r.key.remaining = List.drop [1].length [5, 6]) :=
  xorStreams_key_position [1] [5, 6] [] (by decide)

/-- C6: on an empty input stream and with any key stream and any output,
`xorStreams` returns the count 0 without error, leaves the key stream as it
was (no byte is read from it) and the output as it was (no byte is written). -/
theorem xorStreams_empty_input (key : Reader) (output : Writer) :
    xorStreams key (Reader.ofBytes []) output =
      some ⟨0, none, key, Reader.ofBytes [], output⟩ := by
  unfold xorStreams
  rw [Reader.ofBytes_nil]
  exact xorLoop_input_done _ key output _ _ 0
    (by rw [List.length_replicate]; exact bufferSize_pos)

/-! ## Facts about the string functions -/

theorem char_eq_of_toNat_eq (a b : Char) (h : a.toNat = b.toNat) : a = b :=
  Char.ext (UInt32.toNat.inj h)

theorem utf8_nil : utf8 [] = [] := rfl

theorem utf8_cons (c : Char) (cs : List Char) : utf8 (c :: cs) = utf8Char c ++ utf8 cs := by
  simp [utf8]

theorem utf8_append (as bs : List Char) : utf8 (as ++ bs) = utf8 as ++ utf8 bs := by
  simp [utf8]

theorem utf8Char_ascii (c : Char) (h : c.toNat ≤ 0x7F) : utf8Char c = [c.toNat] := by
  simp [utf8Char, h]

/-- The first byte of the encoding of a non-ASCII code point is at least `0xC0`. -/
theorem utf8Char_head (c : Char) :
    ∃ b bs, utf8Char c = b :: bs ∧ (c.toNat ≤ 0x7F → b = c.toNat ∧ bs = []) ∧
      (0x7F < c.toNat → 0xC0 ≤ b ∧ ∀ x ∈ bs.head?, 0x80 ≤ x) := by
  unfold utf8Char
  simp only
  split
  · exact ⟨_, _, rfl, fun _ => ⟨rfl, rfl⟩, fun h => by omega⟩
  · rename_i h1
    split
    · refine ⟨_, _, rfl, fun h => absurd h h1, ?_⟩
      intro _
      exact ⟨Nat.le_add_right _ _, by simp⟩
    · split
      · refine ⟨_, _, rfl, fun h => absurd h h1, ?_⟩
        intro _
        exact ⟨Nat.le_trans (by decide : 192 ≤ 224) (Nat.le_add_right _ _), by simp⟩
      · refine ⟨_, _, rfl, fun h => absurd h h1, ?_⟩
        intro _
        exact ⟨Nat.le_trans (by decide : 192 ≤ 240) (Nat.le_add_right _ _), by simp⟩

theorem utf8_ascii (str : List Char) (h : ∀ c ∈ str, c.toNat ≤ 0x7F) :
    utf8 str = str.map Char.toNat := by
  induction str with
  | nil => rfl
  | cons c cs ih =>
    rw [utf8_cons, utf8Char_ascii c (h c (List.mem_cons_self _ _)),
      ih (fun x hx => h x (List.mem_cons_of_mem _ hx))]
    rfl

theorem isAsciiDigit_iff (c : Char) : isAsciiDigit c = true ↔ 48 ≤ c.toNat ∧ c.toNat ≤ 57 := by
  simp [isAsciiDigit]

theorem IsNumber_of_isAsciiDigit (U : UnicodeTables) (c : Char) (h : isAsciiDigit c = true) :
    IsNumber U c = true := by
  rw [isAsciiDigit_iff] at h
  have h1 : c.toNat ≤ 0xFF := by omega
  simp only [IsNumber, h1, if_true, latin1Number]
  simp [h.1, h.2]

/-- An ASCII character is a number for `unicode.IsNumber` exactly when it is
one of the digits `0` to `9`. -/
theorem IsNumber_ascii (U : UnicodeTables) (c : Char) (h : c.toNat ≤ 0x7F) :
    IsNumber U c = isAsciiDigit c := by
  have h1 : c.toNat ≤ 0xFF := by omega
  simp only [IsNumber, h1, if_true, latin1Number, isAsciiDigit]
  rw [Bool.eq_iff_iff]
  simp only [decide_eq_true_eq, Bool.or_eq_true, Bool.and_eq_true]
  have e0 : '0'.toNat = 48 := rfl
  have e9 : '9'.toNat = 57 := rfl
  rw [e0, e9]
  omega

theorem firstNonNumber_append (U : UnicodeTables) (pre tl : List Char) (i : Nat)
    (h : ∀ x ∈ pre, IsNumber U x = true) :
    firstNonNumber U (pre ++ tl) i = firstNonNumber U tl (i + (utf8 pre).length) := by
  induction pre generalizing i with
  | nil => simp [utf8_nil]
  | cons c cs ih =>
    have hc := h c (List.mem_cons_self _ _)
    simp only [List.cons_append, firstNonNumber, hc, Bool.not_true, Bool.false_eq_true, if_false,
      List.append_eq]
    rw [ih _ (fun x hx => h x (List.mem_cons_of_mem _ hx)), utf8_cons, List.length_append,
      Nat.add_assoc]

theorem firstNonNumber_all (U : UnicodeTables) (str : List Char) (i : Nat)
    (h : ∀ x ∈ str, IsNumber U x = true) : firstNonNumber U str i = none := by
  have := firstNonNumber_append U str [] i h
  simpa [firstNonNumber] using this

theorem firstNonNumber_split (U : UnicodeTables) (pre : List Char) (c : Char)
    (rest : List Char) (h : ∀ x ∈ pre, IsNumber U x = true) (hc : IsNumber U c = false) :
    firstNonNumber U (pre ++ c :: rest) 0 = some (utf8 pre).length := by
  rw [firstNonNumber_append U pre _ 0 h]
  simp [firstNonNumber, hc]

/-- Every string splits at its first code point that is no number, if it has one. -/
theorem split_at_first_non_number (U : UnicodeTables) (str : List Char) :
    (∀ x ∈ str, IsNumber U x = true) ∨
      ∃ pre c rest, str = pre ++ c :: rest ∧ (∀ x ∈ pre, IsNumber U x = true) ∧
        IsNumber U c = false := by
  induction str with
  | nil => left; simp
  | cons a as ih =>
    by_cases ha : IsNumber U a = true
    · rcases ih with hall | ⟨pre, c, rest, heq, hpre, hc⟩
      · left
        intro x hx
        rcases List.mem_cons.mp hx with rfl | hx
        · exact ha
        · exact hall x hx
      · right
        refine ⟨a :: pre, c, rest, by rw [heq]; rfl, ?_, hc⟩
        intro x hx
        rcases List.mem_cons.mp hx with rfl | hx
        · exact ha
        · exact hpre x hx
    · right
      exact ⟨[], a, as, rfl, by simp, by simpa using ha⟩

/-! ## Facts about `strconv.ParseInt` -/

theorem decimalValueFrom_ge (ds : List Char) (n : Nat) : n ≤ decimalValueFrom ds n := by
  induction ds generalizing n with
  | nil => exact Nat.le_refl _
  | cons c cs ih =>
    have := ih (n * 10 + (c.toNat - '0'.toNat))
    simp only [decimalValueFrom]
    omega

/-- On a run of ASCII digits the loop of `ParseUint` returns the value of the
run when that is below `2^64`, and a range error otherwise. -/
theorem parseUintLoop_digits (ds : List Char) (n : Nat)
    (hd : ∀ c ∈ ds, isAsciiDigit c = true) (hn : n < 2 ^ 64) :
    parseUintLoop (ds.map Char.toNat) n =
      if decimalValueFrom ds n < 2 ^ 64 then Except.ok (decimalValueFrom ds n)
      else Except.error GoError.NumErrRange := by
  induction ds generalizing n with
  | nil => simp only [List.map_nil, parseUintLoop, decimalValueFrom, hn, if_true]
  | cons c cs ih =>
    have hc := (isAsciiDigit_iff c).mp (hd c (List.mem_cons_self _ _))
    have hcs : ∀ x ∈ cs, isAsciiDigit x = true := fun x hx => hd x (List.mem_cons_of_mem _ hx)
    have hge := decimalValueFrom_ge cs (n * 10 + (c.toNat - 48))
    have e0 : '0'.toNat = 48 := rfl
    have e9 : '9'.toNat = 57 := rfl
    have h64 : (2 : Nat) ^ 64 = 18446744073709551616 := by norm_num
    simp only [List.map_cons, parseUintLoop, decimalValueFrom, e0, e9, hc.1, hc.2, and_self,
      if_true, h64] at hn ⊢
    by_cases hcut : n ≥ (18446744073709551616 - 1) / 10 + 1
    · have hbig : ¬ decimalValueFrom cs (n * 10 + (c.toNat - 48)) < 18446744073709551616 := by
        omega
      simp only [hcut, if_true, hbig, if_false]
    · simp only [hcut, if_false]
      by_cases hov : n * 10 + (c.toNat - 48) < 18446744073709551616
      · have hmod : (n * 10 + (c.toNat - 48)) % 18446744073709551616 =
            n * 10 + (c.toNat - 48) := Nat.mod_eq_of_lt hov
        have hno : ¬ (n * 10 + (c.toNat - 48) < n * 10 ∨
            n * 10 + (c.toNat - 48) > 18446744073709551616 - 1) := by omega
        rw [hmod]
        simp only [hno, if_false]
        have := ih (n * 10 + (c.toNat - 48)) hcs (by rw [h64]; exact hov)
        rw [h64] at this
        exact this
      · have hyes : (n * 10 + (c.toNat - 48)) % 18446744073709551616 < n * 10 ∨
            (n * 10 + (c.toNat - 48)) % 18446744073709551616 > 18446744073709551616 - 1 := by
          left
          omega
        have hbig : ¬ decimalValueFrom cs (n * 10 + (c.toNat - 48)) < 18446744073709551616 := by
          omega
        simp only [hyes, if_true, hbig, if_false]

theorem ParseInt_of_not_sign (c : Nat) (cs : List Nat) (h1 : c ≠ 43) (h2 : c ≠ 45) :
    ParseInt (c :: cs) =
      match parseUintLoop (c :: cs) 0 with
      | Except.error e => Except.error e
      | Except.ok un =>
        if un ≥ 2 ^ 63 then Except.error GoError.NumErrRange else Except.ok (un : Int) := by
  have ep : '+'.toNat = 43 := rfl
  have em : '-'.toNat = 45 := rfl
  simp only [ParseInt, ParseUint, ep, em, h1, h2, or_self, if_false, List.cons_ne_nil,
    not_false_eq_true, true_and, false_and]

theorem parseUintLoop_error (s : List Nat) (n : Nat) (e : GoError)
    (h : parseUintLoop s n = Except.error e) :
    e = GoError.NumErrSyntax ∨ e = GoError.NumErrRange := by
  induction s generalizing n with
  | nil => simp [parseUintLoop] at h
  | cons c cs ih =>
    simp only [parseUintLoop] at h
    split at h
    · split at h
      · exact Or.inr (Except.error.inj h).symm
      · split at h
        · exact Or.inr (Except.error.inj h).symm
        · exact ih _ h
    · exact Or.inl (Except.error.inj h).symm

theorem ParseUint_error (s : List Nat) (e : GoError) (h : ParseUint s = Except.error e) :
    e = GoError.NumErrSyntax ∨ e = GoError.NumErrRange := by
  unfold ParseUint at h
  split at h
  · exact Or.inl (Except.error.inj h).symm
  · exact parseUintLoop_error _ _ _ h

/-- The errors of `ParseInt` are the two of `strconv`. -/
theorem ParseInt_error (s : List Nat) (e : GoError) (h : ParseInt s = Except.error e) :
    e = GoError.NumErrSyntax ∨ e = GoError.NumErrRange := by
  unfold ParseInt at h
  split at h
  · exact Or.inl (Except.error.inj h).symm
  · simp only at h
    split at h
    · rename_i e' he
      rw [← Except.error.inj h]
      exact ParseUint_error _ _ he
    · split at h
      · exact Or.inr (Except.error.inj h).symm
      · split at h
        · exact Or.inr (Except.error.inj h).symm
        · split at h <;> cases h

/-- On a non-empty run of ASCII digits `ParseInt` returns the value of the run
when that is at most `2^63 - 1`, and a range error otherwise. -/
theorem ParseInt_digits (ds : List Char) (hne : ds ≠ [])
    (hd : ∀ c ∈ ds, isAsciiDigit c = true) :
    ParseInt (ds.map Char.toNat) =
      if decimalValue ds < 2 ^ 63 then Except.ok (decimalValue ds : Int)
      else Except.error GoError.NumErrRange := by
  cases ds with
  | nil => exact absurd rfl hne
  | cons c cs =>
    have hc := (isAsciiDigit_iff c).mp (hd c (List.mem_cons_self _ _))
    have hloop := parseUintLoop_digits (c :: cs) 0 hd (by norm_num)
    simp only [List.map_cons] at hloop
    rw [List.map_cons, ParseInt_of_not_sign _ _ (by omega) (by omega), hloop]
    have h64 : (2 : Nat) ^ 64 = 18446744073709551616 := by norm_num
    have h63 : (2 : Nat) ^ 63 = 9223372036854775808 := by norm_num
    rw [h64, h63]
    show (match (if decimalValue (c :: cs) < 18446744073709551616 then
          Except.ok (decimalValue (c :: cs))
        else Except.error GoError.NumErrRange : Except GoError Nat) with
      | Except.error e => Except.error e
      | Except.ok un => _) = _
    by_cases h1 : decimalValue (c :: cs) < 9223372036854775808
    · have h2 : decimalValue (c :: cs) < 18446744073709551616 := by omega
      have h3 : ¬ (decimalValue (c :: cs) ≥ 9223372036854775808) := by omega
      simp only [h1, h2, if_true, h3, if_false]
    · by_cases h2 : decimalValue (c :: cs) < 18446744073709551616
      · have h3 : decimalValue (c :: cs) ≥ 9223372036854775808 := by omega
        simp only [h1, h2, if_true, h3, if_false]
      · simp only [h1, h2, if_false]

/-! ## The anatomy of a size string -/

theorem wrapInt64_of_range (x : Int) (h0 : 0 ≤ x) (h1 : x < 2 ^ 63) : wrapInt64 x = x := by
  unfold wrapInt64
  have h63 : (2 : Int) ^ 63 = 9223372036854775808 := by norm_num
  have h64 : (2 : Int) ^ 64 = 18446744073709551616 := by norm_num
  rw [h63] at h1
  rw [h63, h64]
  omega

/-- What `parseSizeBytes` computes on a string whose normal form splits into
number code points `pre`, a first other code point `c`, and `rest`: the unit
is the first byte of `c`, the family is decided by the byte after it, and the
magnitude is `pre`. -/
theorem parseSizeBytes_split (U : UnicodeTables) (s pre : List Char) (c : Char)
    (rest : List Char) (hnorm : normalize U s = pre ++ c :: rest)
    (hpre : ∀ x ∈ pre, IsNumber U x = true) (hc : IsNumber U c = false) :
    parseSizeBytes U s =
      match unitScale (decide ((utf8Char c ++ utf8 rest).getD 1 0 = 105))
          ((utf8Char c).getD 0 0) with
      | Except.error e => Except.error e
      | Except.ok scale =>
        match ParseInt (utf8 pre) with
        | Except.error e => Except.error e
        | Except.ok value => Except.ok (wrapInt64 (value * scale)) := by
  unfold normalize at hnorm
  obtain ⟨b, bs, hb, -, -⟩ := utf8Char_head c
  have hbytes : utf8 (pre ++ c :: rest) = utf8 pre ++ (b :: (bs ++ utf8 rest)) := by
    rw [utf8_append, utf8_cons, hb]; rfl
  have hsize : (utf8 pre ++ (b :: (bs ++ utf8 rest))).getD (utf8 pre).length 0 = b := by
    rw [List.getD_eq_getElem?_getD, List.getElem?_append_right (Nat.le_refl _)]
    simp
  have hgap : (utf8 pre ++ (b :: (bs ++ utf8 rest))).getD ((utf8 pre).length + 1) 0 =
      (bs ++ utf8 rest).getD 0 0 := by
    simp [List.getD_eq_getElem?_getD, List.getElem?_append_right]
  have hi : 'i'.toNat = 105 := rfl
  unfold parseSizeBytes
  simp only [hnorm, firstNonNumber_split U pre c rest hpre hc, hbytes, hsize, hgap,
    List.take_left, hb, hi, List.cons_append, List.length_append, List.length_cons]
  have hiff : ∀ (n m : Nat) (tl : List Nat), m = tl.length →
      ((if n + 1 < n + (m + 1) then tl.getD 0 0 = 105 else false = true) ↔
        (b :: tl).getD 1 0 = 105) := by
    intro n m tl hm
    subst hm
    cases tl with
    | nil => simp
    | cons t ts => simp
  rw [decide_eq_decide.mpr
    (hiff (utf8 pre).length (bs.length + (utf8 rest).length) (bs ++ utf8 rest)
      (by rw [List.length_append]))]
  rfl

/-- The first byte of a code point is the ASCII character `x` only for `x` itself. -/
theorem utf8Char_first_eq (c x : Char) (hx : x.toNat ≤ 0x7F) :
    (utf8Char c).getD 0 0 = x.toNat ↔ c = x := by
  obtain ⟨b, bs, hb, hlow, hhigh⟩ := utf8Char_head c
  rw [hb, List.getD_cons_zero]
  constructor
  · intro h
    by_cases hc : c.toNat ≤ 0x7F
    · exact char_eq_of_toNat_eq c x ((hlow hc).1 ▸ h)
    · have h1 := (hhigh (by omega)).1
      omega
  · intro h
    subst h
    exact (hlow hx).1

/-- The first byte of a string is `i` exactly when its first code point is. -/
theorem utf8_first_byte_i (rest : List Char) :
    (utf8 rest).getD 0 0 = 105 ↔ rest.head? = some 'i' := by
  cases rest with
  | nil => simp [utf8_nil]
  | cons r rs =>
    obtain ⟨b, bs, hb, -, -⟩ := utf8Char_head r
    have h := utf8Char_first_eq r 'i' (by decide)
    rw [hb, List.getD_cons_zero] at h
    rw [utf8_cons, hb]
    simp only [List.cons_append, List.getD_cons_zero, List.head?_cons, Option.some.injEq]
    exact h

theorem unitLetter_cases (u : Char) (hu : u ∈ unitLetters) :
    u = 'b' ∨ u = 'k' ∨ u = 'm' ∨ u = 'g' ∨ u = 't' := by
  simpa [unitLetters] using hu

theorem unitLetter_not_number (U : UnicodeTables) (u : Char) (hu : u ∈ unitLetters) :
    IsNumber U u = false := by
  rcases unitLetter_cases u hu with h | h | h | h | h <;> subst h <;> rfl

theorem unitLetter_utf8 (u : Char) (hu : u ∈ unitLetters) : utf8Char u = [u.toNat] := by
  rcases unitLetter_cases u hu with h | h | h | h | h <;> subst h <;> rfl

theorem unitScale_decimal (u : Char) (hu : u ∈ unitLetters) :
    unitScale false u.toNat = Except.ok ((decimalScale u : Nat) : Int) := by
  rcases unitLetter_cases u hu with h | h | h | h | h <;> subst h <;> rfl

theorem unitScale_binary (u : Char) (hu : u ∈ unitLetters) :
    unitScale true u.toNat = Except.ok ((binaryScale u : Nat) : Int) := by
  rcases unitLetter_cases u hu with h | h | h | h | h <;> subst h <;> rfl

/-- The unit byte is refused exactly when the code point it begins is none of
the unit letters, in either family. -/
theorem unitScale_error_iff (gap : Bool) (c : Char) :
    unitScale gap ((utf8Char c).getD 0 0) = Except.error GoError.ErrInvalidUnit ↔
      c ∉ unitLetters := by
  have ht := utf8Char_first_eq c 't' (by decide)
  have hg := utf8Char_first_eq c 'g' (by decide)
  have hm := utf8Char_first_eq c 'm' (by decide)
  have hk := utf8Char_first_eq c 'k' (by decide)
  have hb := utf8Char_first_eq c 'b' (by decide)
  have et : 't'.toNat = 116 := rfl
  have eg : 'g'.toNat = 103 := rfl
  have em : 'm'.toNat = 109 := rfl
  have ek : 'k'.toNat = 107 := rfl
  have eb : 'b'.toNat = 98 := rfl
  rw [et] at ht
  rw [eg] at hg
  rw [em] at hm
  rw [ek] at hk
  rw [eb] at hb
  simp only [unitLetters, List.mem_cons, List.mem_singleton, List.not_mem_nil, or_false, not_or]
  unfold unitScale
  simp only [et, eg, em, ek, eb, ht, hg, hm, hk, hb]
  cases gap <;> simp only [Bool.false_eq_true, if_false, if_true] <;> split_ifs <;> simp [*]

/-- The value of `unitScale` is an error only as `ErrInvalidUnit`. -/
theorem unitScale_error (gap : Bool) (b : Nat) (e : GoError)
    (h : unitScale gap b = Except.error e) : e = GoError.ErrInvalidUnit := by
  unfold unitScale at h
  repeat' split at h
  all_goals first
    | exact (Except.error.inj h).symm
    | cases h

theorem isAsciiDigit_ascii (c : Char) (h : isAsciiDigit c = true) : c.toNat ≤ 0x7F := by
  rw [isAsciiDigit_iff] at h
  omega

theorem utf8_digits (ds : List Char) (hd : ∀ c ∈ ds, isAsciiDigit c = true) :
    utf8 ds = ds.map Char.toNat :=
  utf8_ascii ds fun c hc => isAsciiDigit_ascii c (hd c hc)

theorem ToLower_digits (U : UnicodeTables) (ds : List Char)
    (hd : ∀ c ∈ ds, isAsciiDigit c = true) : ToLower U ds = ds := by
  unfold ToLower
  conv_rhs => rw [← List.map_id ds]
  apply List.map_congr_left
  intro c hc
  have h := (isAsciiDigit_iff c).mp (hd c hc)
  have h1 : c.toNat ≤ 0x7F := by omega
  have eA : 'A'.toNat = 65 := rfl
  have h2 : ¬ ('A'.toNat ≤ c.toNat ∧ c.toNat ≤ 'Z'.toNat) := by
    rw [eA]; omega
  simp only [ToLowerRune, h1, if_true, h2, if_false, id]

/-! ## The properties of `parseSizeBytes` -/

theorem parse_decimal_unit (U : UnicodeTables) (s ds : List Char) (u : Char)
    (rest : List Char) (hnorm : normalize U s = ds ++ u :: rest) (hne : ds ≠ [])
    (hd : ∀ c ∈ ds, isAsciiDigit c = true) (hu : u ∈ unitLetters)
    (hrest : rest.head? ≠ some 'i') (hv : decimalValue ds * decimalScale u ≤ 2 ^ 63 - 1) :
    parseSizeBytes U s = Except.ok ((decimalValue ds * decimalScale u : Nat) : Int) := by
  have hgap : decide (([u.toNat] ++ utf8 rest).getD 1 0 = 105) = false := by
    have := utf8_first_byte_i rest
    simp only [List.singleton_append, List.getD_cons_succ, decide_eq_false_iff_not]
    exact fun h => hrest (this.mp h)
  have hscale : 1 ≤ decimalScale u := by
    rcases unitLetter_cases u hu with h | h | h | h | h <;> subst h <;> decide
  have h63 : (2 : Nat) ^ 63 = 9223372036854775808 := by norm_num
  have hval : decimalValue ds < 2 ^ 63 := by
    have := Nat.le_mul_of_pos_right (decimalValue ds) hscale
    omega
  rw [parseSizeBytes_split U s ds u rest hnorm
      (fun x hx => IsNumber_of_isAsciiDigit U x (hd x hx)) (unitLetter_not_number U u hu),
    unitLetter_utf8 u hu, hgap, List.getD_cons_zero, unitScale_decimal u hu, utf8_digits ds hd,
    ParseInt_digits ds hne hd]
  simp only [hval, if_true]
  rw [wrapInt64_of_range]
  · push_cast; rfl
  · positivity
  · have : ((decimalValue ds * decimalScale u : Nat) : Int) < 2 ^ 63 := by
      have h : decimalValue ds * decimalScale u < 2 ^ 63 := by omega
      exact_mod_cast h
    push_cast at this
    exact this

theorem parse_binary_unit (U : UnicodeTables) (s ds : List Char) (u : Char)
    (rest : List Char) (hnorm : normalize U s = ds ++ u :: 'i' :: rest) (hne : ds ≠ [])
    (hd : ∀ c ∈ ds, isAsciiDigit c = true) (hu : u ∈ unitLetters)
    (hv : decimalValue ds * binaryScale u ≤ 2 ^ 63 - 1) :
    parseSizeBytes U s = Except.ok ((decimalValue ds * binaryScale u : Nat) : Int) := by
  have hgap : decide (([u.toNat] ++ utf8 ('i' :: rest)).getD 1 0 = 105) = true := by
    have := utf8_first_byte_i ('i' :: rest)
    simp only [List.singleton_append, List.getD_cons_succ, decide_eq_true_eq]
    exact this.mpr rfl
  have hscale : 1 ≤ binaryScale u := by
    rcases unitLetter_cases u hu with h | h | h | h | h <;> subst h <;> decide
  have h63 : (2 : Nat) ^ 63 = 9223372036854775808 := by norm_num
  have hval : decimalValue ds < 2 ^ 63 := by
    have := Nat.le_mul_of_pos_right (decimalValue ds) hscale
    omega
  rw [parseSizeBytes_split U s ds u ('i' :: rest) hnorm
      (fun x hx => IsNumber_of_isAsciiDigit U x (hd x hx)) (unitLetter_not_number U u hu),
    unitLetter_utf8 u hu, hgap, List.getD_cons_zero, unitScale_binary u hu, utf8_digits ds hd,
    ParseInt_digits ds hne hd]
  simp only [hval, if_true]
  rw [wrapInt64_of_range]
  · push_cast; rfl
  · positivity
  · have : ((decimalValue ds * binaryScale u : Nat) : Int) < 2 ^ 63 := by
      have h : decimalValue ds * binaryScale u < 2 ^ 63 := by omega
      exact_mod_cast h
    push_cast at this
    exact this

theorem parse_plain_count (U : UnicodeTables) (s ds : List Char)
    (hs : ReplaceAllSpaces s = ds) (hne : ds ≠ []) (hd : ∀ c ∈ ds, isAsciiDigit c = true)
    (hv : decimalValue ds ≤ 2 ^ 63 - 1) :
    parseSizeBytes U s = Except.ok (decimalValue ds : Int) := by
  have h63 : (2 : Nat) ^ 63 = 9223372036854775808 := by norm_num
  have hval : decimalValue ds < 2 ^ 63 := by omega
  unfold parseSizeBytes
  simp only [hs, ToLower_digits U ds hd,
    firstNonNumber_all U ds 0 (fun x hx => IsNumber_of_isAsciiDigit U x (hd x hx)),
    utf8_digits ds hd, ParseInt_digits ds hne hd, hval, if_true]

theorem parseSizeBytes_all_number (U : UnicodeTables) (s : List Char)
    (h : ∀ x ∈ normalize U s, IsNumber U x = true) :
    parseSizeBytes U s = ParseInt (utf8 (normalize U s)) := by
  unfold normalize at h
  unfold parseSizeBytes normalize
  simp only [firstNonNumber_all U _ 0 h]

theorem parse_invalid_unit_iff (U : UnicodeTables) (s : List Char) :
    parseSizeBytes U s = Except.error GoError.ErrInvalidUnit ↔
      ∃ pre c rest, normalize U s = pre ++ c :: rest ∧
        (∀ x ∈ pre, IsNumber U x = true) ∧ IsNumber U c = false ∧ c ∉ unitLetters := by
  constructor
  · intro h
    rcases split_at_first_non_number U (normalize U s) with hall | ⟨pre, c, rest, heq, hpre, hc⟩
    · rw [parseSizeBytes_all_number U s hall] at h
      rcases ParseInt_error _ _ h with h' | h' <;> cases h'
    · refine ⟨pre, c, rest, heq, hpre, hc, ?_⟩
      rw [parseSizeBytes_split U s pre c rest heq hpre hc] at h
      cases hsc : unitScale (decide ((utf8Char c ++ utf8 rest).getD 1 0 = 105))
          ((utf8Char c).getD 0 0) with
      | error e =>
        have he := unitScale_error _ _ _ hsc
        subst he
        exact (unitScale_error_iff _ c).mp hsc
      | ok scale =>
        rw [hsc] at h
        simp only at h
        cases hp : ParseInt (utf8 pre) with
        | error e =>
          rw [hp] at h
          simp only at h
          have := ParseInt_error _ _ hp
          rw [Except.error.inj h] at this
          rcases this with h' | h' <;> cases h'
        | ok value =>
          rw [hp] at h
          cases h
  · rintro ⟨pre, c, rest, heq, hpre, hc, hnot⟩
    rw [parseSizeBytes_split U s pre c rest heq hpre hc,
      (unitScale_error_iff _ c).mpr hnot]

/-- The cases of `TestParseSizeBytes` in `main_test.go`, and the string `5x`:
15 bytes, a megabyte, three terabytes, fifteen gibibytes, and `ErrInvalidUnit`. -/
theorem TestParseSizeBytes (U : UnicodeTables) :
    parseSizeBytes U "15".toList = Except.ok 15 ∧
    parseSizeBytes U "1M".toList = Except.ok megabyte ∧
    parseSizeBytes U "3 tb".toList = Except.ok (3 * terabyte) ∧
    parseSizeBytes U "15 gib".toList = Except.ok (15 * gibibyte) ∧
    parseSizeBytes U "5x".toList = Except.error GoError.ErrInvalidUnit := by
  refine ⟨?_, ?_, ?_, ?_, ?_⟩
  · exact parse_plain_count U _ ['1', '5'] (by decide) (by decide) (by decide) (by decide)
  · exact parse_decimal_unit U _ ['1'] 'm' [] rfl (by decide) (by decide)
      (by decide) (by decide) (by decide)
  · exact parse_decimal_unit U _ ['3'] 't' ['b'] rfl (by decide) (by decide)
      (by decide) (by decide) (by decide)
  · exact parse_binary_unit U _ ['1', '5'] 'g' ['b'] rfl (by decide) (by decide)
      (by decide) (by decide)
  · exact (parse_invalid_unit_iff U _).mpr
      ⟨['5'], 'x', [], rfl, fun x hx => by
        rw [List.mem_singleton.mp hx]; rfl, rfl, by decide⟩

/-- C7: decimal units. When the string, spaces removed and lower-cased, is a
non-empty run of ASCII digits of value `v`, a unit letter `u` of `b`, `k`,
`m`, `g`, `t`, and then nothing or a text that does not begin with `i`,
`parseSizeBytes` returns `v * scale u` with the 1000-based scale, provided
that `v * scale u ≤ 2^63 - 1`. -/
theorem parseSizeBytes_decimal (U : UnicodeTables) (s ds : List Char) (u : Char)
    (rest : List Char) (hnorm : normalize U s = ds ++ u :: rest) (hne : ds ≠ [])
    (hd : ∀ c ∈ ds, isAsciiDigit c = true) (hu : u ∈ unitLetters)
    (hrest : rest.head? ≠ some 'i') (hv : decimalValue ds * decimalScale u ≤ 2 ^ 63 - 1) :
    parseSizeBytes U s = Except.ok ((decimalValue ds * decimalScale u : Nat) : Int) :=
  parse_decimal_unit U s ds u rest hnorm hne hd hu hrest hv

theorem parseSizeBytes_decimal_witness :
    parseSizeBytes UnicodeTables.latin1 ['3', ' ', 't', 'b'] =
      Except.ok ((decimalValue ['3'] * decimalScale 't' : Nat) : Int) :=
  parseSizeBytes_decimal UnicodeTables.latin1 ['3', ' ', 't', 'b'] ['3'] 't' ['b']
    (by decide) (by decide) (by decide) (by decide) (by decide) (by decide)

/-- C8: binary units. When the string, spaces removed and lower-cased, is a
non-empty run of ASCII digits of value `v`, a unit letter `u` of `b`, `k`,
`m`, `g`, `t`, the letter `i`, and any text, `parseSizeBytes` returns
`v * scale u` with the 1024-based scale, provided that `v * scale u ≤ 2^63 - 1`. -/
theorem parseSizeBytes_binary (U : UnicodeTables) (s ds : List Char) (u : Char)
    (rest : List Char) (hnorm : normalize U s = ds ++ u :: 'i' :: rest) (hne : ds ≠ [])
    (hd : ∀ c ∈ ds, isAsciiDigit c = true) (hu : u ∈ unitLetters)
    (hv : decimalValue ds * binaryScale u ≤ 2 ^ 63 - 1) :
    parseSizeBytes U s = Except.ok ((decimalValue ds * binaryScale u : Nat) : Int) :=
  parse_binary_unit U s ds u rest hnorm hne hd hu hv

theorem parseSizeBytes_binary_witness :
    parseSizeBytes UnicodeTables.latin1 ['1', '5', ' ', 'g', 'i', 'b'] =
      Except.ok ((decimalValue ['1', '5'] * binaryScale 'g' : Nat) : Int) :=
  parseSizeBytes_binary UnicodeTables.latin1 ['1', '5', ' ', 'g', 'i', 'b'] ['1', '5'] 'g' ['b']
    (by decide) (by decide) (by decide) (by decide) (by decide)

/-- C9: plain byte counts. When the string, spaces removed, is a non-empty run
of ASCII digits of value `v ≤ 2^63 - 1`, `parseSizeBytes` returns `v`. -/
theorem parseSizeBytes_plain (U : UnicodeTables) (s ds : List Char)
    (hs : ReplaceAllSpaces s = ds) (hne : ds ≠ []) (hd : ∀ c ∈ ds, isAsciiDigit c = true)
    (hv : decimalValue ds ≤ 2 ^ 63 - 1) :
    parseSizeBytes U s = Except.ok (decimalValue ds : Int) :=
  parse_plain_count U s ds hs hne hd hv

theorem parseSizeBytes_plain_witness :
    parseSizeBytes UnicodeTables.latin1 ['1', '5'] = Except.ok (decimalValue ['1', '5'] : Int) :=
  parseSizeBytes_plain UnicodeTables.latin1 ['1', '5'] ['1', '5']
    (by decide) (by decide) (by decide) (by decide)

/-- C10, as stated with "digit" read as one of `0` to `9`, fails: for the
string of the digit 5 and the superscript two (U+00B2) the first character
that is no digit is the superscript, which is no unit letter, yet
`parseSizeBytes` fails with a syntax error of `strconv` and not with
`ErrInvalidUnit`, because `unicode.IsNumber` holds of the superscript. -/
theorem parseSizeBytes_invalid_unit_counterexample :
    (∀ U : UnicodeTables,
      parseSizeBytes U ['5', Char.ofNat 0xB2] = Except.error GoError.NumErrSyntax) ∧
    (∀ U : UnicodeTables, ∃ pre c rest,
      normalize U ['5', Char.ofNat 0xB2] = pre ++ c :: rest ∧
      (∀ x ∈ pre, isAsciiDigit x = true) ∧ isAsciiDigit c = false ∧ c ∉ unitLetters) := by
  constructor
  · intro U
    have hnorm : normalize U ['5', Char.ofNat 0xB2] = ['5', Char.ofNat 0xB2] := rfl
    have hall : ∀ x ∈ normalize U ['5', Char.ofNat 0xB2], IsNumber U x = true := by
      rw [hnorm]
      intro x hx
      simp only [List.mem_cons, List.mem_singleton, List.not_mem_nil, or_false] at hx
      rcases hx with rfl | rfl <;> rfl
    rw [parseSizeBytes_all_number U _ hall, hnorm]
    rfl
  · intro U
    exact ⟨['5'], Char.ofNat 0xB2, [], rfl, by decide, by decide, by decide⟩

/-- C10, amended: `parseSizeBytes` fails with `ErrInvalidUnit` if and only if
the string, spaces removed and lower-cased, contains a code point that is no
number for `unicode.IsNumber` and the first such code point is none of `b`,
`k`, `m`, `g`, `t`; whatever precedes it and whether or not an `i` follows. -/
theorem parseSizeBytes_invalid_unit_iff (U : UnicodeTables) (s : List Char) :
    parseSizeBytes U s = Except.error GoError.ErrInvalidUnit ↔
      ∃ pre c rest, normalize U s = pre ++ c :: rest ∧
        (∀ x ∈ pre, IsNumber U x = true) ∧ IsNumber U c = false ∧ c ∉ unitLetters :=
  parse_invalid_unit_iff U s

/-! ## The sign and the range of the parsed size -/

/-- A successful `ParseInt` on a string that does not begin with a minus sign
returns a value between 0 and `2^63 - 1`. -/
theorem ParseInt_ok_range (s : List Nat) (v : Int) (h : ParseInt s = Except.ok v)
    (hs : s.head? ≠ some 45) : 0 ≤ v ∧ v < 2 ^ 63 := by
  unfold ParseInt at h
  split at h
  · cases h
  · rename_i c cs
    have em : '-'.toNat = 45 := rfl
    have hc : ¬ (c = 45) := by
      intro hc
      exact hs (by rw [hc]; rfl)
    simp only [em, hc, not_false_eq_true, true_and, false_and, if_false] at h
    split at h
    · cases h
    · rename_i un hu
      split at h
      · cases h
      · rename_i hlt
        have hv : v = (un : Int) := (Except.ok.inj h).symm
        subst hv
        refine ⟨Int.ofNat_nonneg un, ?_⟩
        have : un < 2 ^ 63 := by omega
        exact_mod_cast this

/-- The scales of `unitScale` are at least 1. -/
theorem unitScale_ok_pos (gap : Bool) (b : Nat) (sc : Int)
    (h : unitScale gap b = Except.ok sc) : 1 ≤ sc := by
  unfold unitScale at h
  repeat' split at h
  all_goals first
    | (cases h; decide)
    | cases h

/-- The bytes of a run of number code points do not begin with a minus sign. -/
theorem utf8_number_head (U : UnicodeTables) (pre : List Char)
    (hpre : ∀ x ∈ pre, IsNumber U x = true) : (utf8 pre).head? ≠ some 45 := by
  cases pre with
  | nil => simp [utf8_nil]
  | cons p ps =>
    obtain ⟨b, bs, hb, -, -⟩ := utf8Char_head p
    have h := utf8Char_first_eq p '-' (by decide)
    rw [hb, List.getD_cons_zero] at h
    rw [utf8_cons, hb]
    simp only [List.cons_append, List.head?_cons, ne_eq, Option.some.injEq]
    intro h45
    have hp : p = '-' := h.mp h45
    have hnum := hpre p (List.mem_cons_self _ _)
    rw [hp] at hnum
    have hminus : IsNumber U '-' = false := rfl
    rw [hminus] at hnum
    cases hnum

/-- Every value that `parseSizeBytes` returns is a magnitude between 0 and
`2^63 - 1` times a scale of at least 1, reduced to 64 bits. -/
theorem parse_ok_shape (U : UnicodeTables) (s : List Char) (r : Int)
    (h : parseSizeBytes U s = Except.ok r) :
    ∃ v scale : Int, 0 ≤ v ∧ v ≤ 2 ^ 63 - 1 ∧ 1 ≤ scale ∧ r = wrapInt64 (v * scale) ∧
      (v * scale ≤ 2 ^ 63 - 1 → r = v * scale ∧ 0 ≤ r) := by
  have key : ∀ v scale : Int, 0 ≤ v → v < 2 ^ 63 → 1 ≤ scale → r = wrapInt64 (v * scale) →
      ∃ v scale : Int, 0 ≤ v ∧ v ≤ 2 ^ 63 - 1 ∧ 1 ≤ scale ∧ r = wrapInt64 (v * scale) ∧
        (v * scale ≤ 2 ^ 63 - 1 → r = v * scale ∧ 0 ≤ r) := by
    intro v scale h0 h1 h2 hr
    refine ⟨v, scale, h0, by omega, h2, hr, ?_⟩
    intro hle
    have hnn : 0 ≤ v * scale := Int.mul_nonneg h0 (by omega)
    have hw := wrapInt64_of_range (v * scale) hnn (by omega)
    rw [hw] at hr
    exact ⟨hr, by rw [hr]; exact hnn⟩
  rcases split_at_first_non_number U (normalize U s) with hall | ⟨pre, c, rest, heq, hpre, hc⟩
  · rw [parseSizeBytes_all_number U s hall] at h
    obtain ⟨h0, h1⟩ := ParseInt_ok_range _ _ h (utf8_number_head U _ hall)
    refine key r 1 h0 h1 (by decide) ?_
    rw [Int.mul_one, wrapInt64_of_range r h0 h1]
  · rw [parseSizeBytes_split U s pre c rest heq hpre hc] at h
    cases hsc : unitScale (decide ((utf8Char c ++ utf8 rest).getD 1 0 = 105))
        ((utf8Char c).getD 0 0) with
    | error e =>
      rw [hsc] at h
      cases h
    | ok scale =>
      rw [hsc] at h
      simp only at h
      cases hp : ParseInt (utf8 pre) with
      | error e =>
        rw [hp] at h
        cases h
      | ok value =>
        rw [hp] at h
        obtain ⟨h0, h1⟩ := ParseInt_ok_range _ _ hp (utf8_number_head U _ hpre)
        exact key value scale h0 h1 (unitScale_ok_pos _ _ _ hsc) (Except.ok.inj h).symm

/-- What `parseSizeBytes` computes on a run of ASCII digits followed by a unit
letter: a syntax error on an empty run, a range error on a value above
`2^63 - 1`, and else the value times the scale, reduced to 64 bits. -/
theorem parse_digits_unit (U : UnicodeTables) (s ds : List Char) (u : Char)
    (rest : List Char) (hnorm : normalize U s = ds ++ u :: rest)
    (hd : ∀ c ∈ ds, isAsciiDigit c = true) (hu : u ∈ unitLetters) :
    parseSizeBytes U s =
      if ds = [] then Except.error GoError.NumErrSyntax
      else if decimalValue ds < 2 ^ 63 then
        Except.ok (wrapInt64 ((decimalValue ds : Int) *
          ((if rest.head? = some 'i' then binaryScale u else decimalScale u : Nat) : Int)))
      else Except.error GoError.NumErrRange := by
  have hgap : decide (([u.toNat] ++ utf8 rest).getD 1 0 = 105) =
      decide (rest.head? = some 'i') := by
    have := utf8_first_byte_i rest
    simp only [List.singleton_append, List.getD_cons_succ]
    exact decide_eq_decide.mpr this
  rw [parseSizeBytes_split U s ds u rest hnorm
      (fun x hx => IsNumber_of_isAsciiDigit U x (hd x hx)) (unitLetter_not_number U u hu),
    unitLetter_utf8 u hu, hgap, List.getD_cons_zero, utf8_digits ds hd]
  by_cases hi : rest.head? = some 'i'
  · simp only [hi, decide_True, if_true, unitScale_binary u hu]
    by_cases hne : ds = []
    · subst hne
      rfl
    · rw [ParseInt_digits ds hne hd]
      simp only [hne, if_false]
      by_cases hv : decimalValue ds < 2 ^ 63
      · simp only [hv, if_true]
      · simp only [hv, if_false]
  · simp only [hi, decide_False, if_false, unitScale_decimal u hu]
    by_cases hne : ds = []
    · subst hne
      rfl
    · rw [ParseInt_digits ds hne hd]
      simp only [hne, if_false]
      by_cases hv : decimalValue ds < 2 ^ 63
      · simp only [hv, if_true]
      · simp only [hv, if_false]

/-- C11, as stated, fails: for the string `9223372036854775807k` the magnitude
`2^63 - 1` is accepted, the product with 1000 wraps around in 64 bits, and
`parseSizeBytes` returns `-1000` without error. -/
theorem parseSizeBytes_negative_counterexample :
    (∀ U : UnicodeTables,
      parseSizeBytes U "9223372036854775807k".toList = Except.ok (-1000)) ∧
    ¬ ((0 : Int) ≤ -1000) := by
  constructor
  · intro U
    have h := parse_digits_unit U "9223372036854775807k".toList "9223372036854775807".toList
      'k' [] rfl (by decide) (by decide)
    rw [h]
    rfl
  · decide

/-- A successful run of the loop of `ParseUint` has seen digits only. -/
theorem parseUintLoop_ok_digits (bs : List Nat) (n v : Nat)
    (h : parseUintLoop bs n = Except.ok v) : ∀ b ∈ bs, 48 ≤ b ∧ b ≤ 57 := by
  induction bs generalizing n with
  | nil => intro b hb; cases hb
  | cons c cs ih =>
    have e0 : '0'.toNat = 48 := rfl
    have e9 : '9'.toNat = 57 := rfl
    simp only [parseUintLoop, e0, e9] at h
    split at h
    · rename_i hc
      split at h
      · cases h
      · split at h
        · cases h
        · intro b hb
          rcases List.mem_cons.mp hb with hb | hb
          · rw [hb]; exact hc
          · exact ih _ h b hb
    · cases h

/-- A successful `ParseInt` on a string that begins with no sign has seen a
non-empty run of digits. -/
theorem ParseInt_ok_digits (s : List Nat) (v : Int) (h : ParseInt s = Except.ok v)
    (hplus : s.head? ≠ some 43) (hminus : s.head? ≠ some 45) :
    s ≠ [] ∧ ∀ b ∈ s, 48 ≤ b ∧ b ≤ 57 := by
  cases s with
  | nil => cases h
  | cons c cs =>
    refine ⟨List.cons_ne_nil _ _, ?_⟩
    have h1 : c ≠ 43 := fun hc => hplus (by rw [hc]; rfl)
    have h2 : c ≠ 45 := fun hc => hminus (by rw [hc]; rfl)
    rw [ParseInt_of_not_sign c cs h1 h2] at h
    cases hl : parseUintLoop (c :: cs) 0 with
    | error e =>
      rw [hl] at h
      cases h
    | ok un => exact parseUintLoop_ok_digits _ _ _ hl

/-- The bytes of a run of number code points do not begin with a plus sign. -/
theorem utf8_number_head_plus (U : UnicodeTables) (pre : List Char)
    (hpre : ∀ x ∈ pre, IsNumber U x = true) : (utf8 pre).head? ≠ some 43 := by
  cases pre with
  | nil => simp [utf8_nil]
  | cons p ps =>
    obtain ⟨b, bs, hb, -, -⟩ := utf8Char_head p
    have h := utf8Char_first_eq p '+' (by decide)
    rw [hb, List.getD_cons_zero] at h
    rw [utf8_cons, hb]
    simp only [List.cons_append, List.head?_cons, ne_eq, Option.some.injEq]
    intro h43
    have hp : p = '+' := h.mp h43
    have hnum := hpre p (List.mem_cons_self _ _)
    rw [hp] at hnum
    have hplus : IsNumber U '+' = false := rfl
    rw [hplus] at hnum
    cases hnum

/-- A string whose bytes are all digits is a run of ASCII digits. -/
theorem digits_of_utf8_digits (str : List Char) (h : ∀ b ∈ utf8 str, 48 ≤ b ∧ b ≤ 57) :
    ∀ c ∈ str, isAsciiDigit c = true := by
  induction str with
  | nil => intro c hc; cases hc
  | cons a as ih =>
    rw [utf8_cons] at h
    obtain ⟨b, bs, hb, hlow, hhigh⟩ := utf8Char_head a
    have hbmem : b ∈ utf8Char a ++ utf8 as := by
      rw [hb]; exact List.mem_append_left _ (List.mem_cons_self _ _)
    have hbr := h b hbmem
    have ha : isAsciiDigit a = true := by
      rw [isAsciiDigit_iff]
      by_cases hlo : a.toNat ≤ 0x7F
      · have := (hlow hlo).1
        omega
      · have := (hhigh (by omega)).1
        omega
    intro c hc
    rcases List.mem_cons.mp hc with hc | hc
    · rw [hc]; exact ha
    · exact ih (fun x hx => h x (List.mem_append_right _ hx)) c hc

/-- A run of number code points that `ParseInt` accepts is a non-empty run of
ASCII digits. -/
theorem digits_of_ParseInt_ok (U : UnicodeTables) (pre : List Char) (v : Int)
    (hpre : ∀ x ∈ pre, IsNumber U x = true) (h : ParseInt (utf8 pre) = Except.ok v) :
    pre ≠ [] ∧ ∀ c ∈ pre, isAsciiDigit c = true := by
  obtain ⟨hne, hd⟩ := ParseInt_ok_digits _ _ h (utf8_number_head_plus U pre hpre)
    (utf8_number_head U pre hpre)
  refine ⟨?_, digits_of_utf8_digits pre hd⟩
  intro hnil
  subst hnil
  exact hne rfl

/-- What a successful `parseSizeBytes` has read and what it returns: the
string, spaces removed and lower-cased, is a non-empty run of ASCII digits of
a value `v ≤ 2^63 - 1`, alone or followed by a unit letter and any text; alone
the result is `v`, and with a unit letter the result is `v` times the scale
of the letter (1024-based when an `i` follows, 1000-based else), reduced to
64 bits, which is the product itself when that is at most `2^63 - 1`. -/
theorem parse_ok_anatomy (U : UnicodeTables) (s : List Char) (r : Int)
    (h : parseSizeBytes U s = Except.ok r) :
    ∃ ds : List Char, ds ≠ [] ∧ (∀ c ∈ ds, isAsciiDigit c = true) ∧
      decimalValue ds ≤ 2 ^ 63 - 1 ∧
      ((normalize U s = ds ∧ r = (decimalValue ds : Int) ∧ 0 ≤ r) ∨
        ∃ (u : Char) (rest : List Char), normalize U s = ds ++ u :: rest ∧ u ∈ unitLetters ∧
          r = wrapInt64 ((decimalValue ds : Int) *
            ((if rest.head? = some 'i' then binaryScale u else decimalScale u : Nat) : Int)) ∧
          (decimalValue ds * (if rest.head? = some 'i' then binaryScale u else decimalScale u) ≤
              2 ^ 63 - 1 →
            r = ((decimalValue ds *
              (if rest.head? = some 'i' then binaryScale u else decimalScale u) : Nat) : Int) ∧
            0 ≤ r)) := by
  have h63 : (2 : Nat) ^ 63 = 9223372036854775808 := by norm_num
  rcases split_at_first_non_number U (normalize U s) with hall | ⟨pre, c, rest, heq, hpre, hc⟩
  · rw [parseSizeBytes_all_number U s hall] at h
    obtain ⟨hne, hd⟩ := digits_of_ParseInt_ok U _ r hall h
    rw [utf8_digits _ hd, ParseInt_digits _ hne hd] at h
    by_cases hv : decimalValue (normalize U s) < 2 ^ 63
    · simp only [hv, if_true] at h
      have hr : r = (decimalValue (normalize U s) : Int) := (Except.ok.inj h).symm
      exact ⟨normalize U s, hne, hd, by omega, Or.inl ⟨rfl, hr, by rw [hr]; exact Int.ofNat_nonneg _⟩⟩
    · simp only [hv, if_false] at h
      cases h
  · have hsplit := h
    rw [parseSizeBytes_split U s pre c rest heq hpre hc] at hsplit
    cases hsc : unitScale (decide ((utf8Char c ++ utf8 rest).getD 1 0 = 105))
        ((utf8Char c).getD 0 0) with
    | error e =>
      rw [hsc] at hsplit
      cases hsplit
    | ok scale =>
      have hu : c ∈ unitLetters := by
        by_contra hnot
        rw [(unitScale_error_iff _ c).mpr hnot] at hsc
        cases hsc
      rw [hsc] at hsplit
      simp only at hsplit
      cases hp : ParseInt (utf8 pre) with
      | error e =>
        rw [hp] at hsplit
        cases hsplit
      | ok value =>
        obtain ⟨hne, hd⟩ := digits_of_ParseInt_ok U pre value hpre hp
        rw [parse_digits_unit U s pre c rest heq hd hu] at h
        simp only [hne, if_false] at h
        by_cases hv : decimalValue pre < 2 ^ 63
        · simp only [hv, if_true] at h
          have hr := (Except.ok.inj h).symm
          refine ⟨pre, hne, hd, by omega, Or.inr ⟨c, rest, heq, hu, hr, ?_⟩⟩
          intro hle
          have hnn : (0 : Int) ≤ ((decimalValue pre *
              (if rest.head? = some 'i' then binaryScale c else decimalScale c) : Nat) : Int) :=
            Int.ofNat_nonneg _
          have hlt : ((decimalValue pre *
              (if rest.head? = some 'i' then binaryScale c else decimalScale c) : Nat) : Int) <
              2 ^ 63 := by
            have hnat : decimalValue pre *
                (if rest.head? = some 'i' then binaryScale c else decimalScale c) < 2 ^ 63 := by
              omega
            exact_mod_cast hnat
          have hw := wrapInt64_of_range _ hnn hlt
          rw [Nat.cast_mul] at hw
          rw [hw] at hr
          rw [Nat.cast_mul]
          exact ⟨hr, by rw [hr]; exact Int.mul_nonneg (Int.ofNat_nonneg _) (Int.ofNat_nonneg _)⟩
        · simp only [hv, if_false] at h
          cases h

/-- C11, amended: when `parseSizeBytes` returns `r` without error, the string,
spaces removed and lower-cased, is a non-empty run of ASCII digits of a value
`v ≤ 2^63 - 1`, alone or followed by a unit letter and any text. Alone, `r` is
`v` and non-negative. With a unit letter, `r` is `v * scale` reduced to a
signed 64-bit integer, for the scale of the letter (1024-based when an `i`
follows, 1000-based else), and `r` is `v * scale` itself, and so non-negative,
whenever `v * scale ≤ 2^63 - 1`. -/
theorem parseSizeBytes_nonneg_of_no_overflow (U : UnicodeTables) (s : List Char) (r : Int)
    (h : parseSizeBytes U s = Except.ok r) :
    ∃ ds : List Char, ds ≠ [] ∧ (∀ c ∈ ds, isAsciiDigit c = true) ∧
      decimalValue ds ≤ 2 ^ 63 - 1 ∧
      ((normalize U s = ds ∧ r = (decimalValue ds : Int) ∧ 0 ≤ r) ∨
        ∃ (u : Char) (rest : List Char), normalize U s = ds ++ u :: rest ∧ u ∈ unitLetters ∧
          r = wrapInt64 ((decimalValue ds : Int) *
            ((if rest.head? = some 'i' then binaryScale u else decimalScale u : Nat) : Int)) ∧
          (decimalValue ds * (if rest.head? = some 'i' then binaryScale u else decimalScale u) ≤
              2 ^ 63 - 1 →
            r = ((decimalValue ds *
              (if rest.head? = some 'i' then binaryScale u else decimalScale u) : Nat) : Int) ∧
            0 ≤ r)) :=
  parse_ok_anatomy U s r h

theorem parseSizeBytes_nonneg_of_no_overflow_witness :
    ∃ ds : List Char, ds ≠ [] ∧ (∀ c ∈ ds, isAsciiDigit c = true) ∧
      decimalValue ds ≤ 2 ^ 63 - 1 ∧
      ((normalize UnicodeTables.latin1 "5 KiB".toList = ds ∧
          (5120 : Int) = (decimalValue ds : Int) ∧ 0 ≤ (5120 : Int)) ∨
        ∃ (u : Char) (rest : List Char),
          normalize UnicodeTables.latin1 "5 KiB".toList = ds ++ u :: rest ∧ u ∈ unitLetters ∧
          (5120 : Int) = wrapInt64 ((decimalValue ds : Int) *
            ((if rest.head? = some 'i' then binaryScale u else decimalScale u : Nat) : Int)) ∧
          (decimalValue ds * (if rest.head? = some 'i' then binaryScale u else decimalScale u) ≤
              2 ^ 63 - 1 →
            (5120 : Int) = ((decimalValue ds *
              (if rest.head? = some 'i' then binaryScale u else decimalScale u) : Nat) : Int) ∧
            0 ≤ (5120 : Int))) :=
  parseSizeBytes_nonneg_of_no_overflow UnicodeTables.latin1 "5 KiB".toList 5120 rfl

/-- A run of ASCII digits above `2^63 - 1`, with nothing after it, is refused
by `ParseInt` with a range error. -/
theorem parse_plain_range (U : UnicodeTables) (s ds : List Char)
    (hs : ReplaceAllSpaces s = ds) (hne : ds ≠ []) (hd : ∀ c ∈ ds, isAsciiDigit c = true)
    (hv : 2 ^ 63 - 1 < decimalValue ds) :
    parseSizeBytes U s = Except.error GoError.NumErrRange := by
  have h63 : (2 : Nat) ^ 63 = 9223372036854775808 := by norm_num
  have hval : ¬ decimalValue ds < 2 ^ 63 := by omega
  unfold parseSizeBytes
  simp only [hs, ToLower_digits U ds hd,
    firstNonNumber_all U ds 0 (fun x hx => IsNumber_of_isAsciiDigit U x (hd x hx)),
    utf8_digits ds hd, ParseInt_digits ds hne hd, hval, if_false]

/-- C12: when the string, spaces removed and lower-cased, is a run of ASCII
digits, a unit letter and any text, `parseSizeBytes` fails exactly when the
run is empty or its value exceeds `2^63 - 1`, and then with a syntax or range
error of `strconv`, which is not `ErrInvalidUnit`; the empty string fails
with a syntax error, and a run of digits alone of value above `2^63 - 1` with
a range error. -/
theorem parseSizeBytes_numeric_errors (U : UnicodeTables) :
    (∀ (s ds : List Char) (u : Char) (rest : List Char),
      normalize U s = ds ++ u :: rest → (∀ c ∈ ds, isAsciiDigit c = true) → u ∈ unitLetters →
        ((∃ e, parseSizeBytes U s = Except.error e) ↔ (ds = [] ∨ 2 ^ 63 - 1 < decimalValue ds)) ∧
        (∀ e, parseSizeBytes U s = Except.error e →
          (e = GoError.NumErrSyntax ∨ e = GoError.NumErrRange) ∧ e ≠ GoError.ErrInvalidUnit)) ∧
    parseSizeBytes U [] = Except.error GoError.NumErrSyntax ∧
    (∀ s ds : List Char, ReplaceAllSpaces s = ds → ds ≠ [] →
      (∀ c ∈ ds, isAsciiDigit c = true) → 2 ^ 63 - 1 < decimalValue ds →
        parseSizeBytes U s = Except.error GoError.NumErrRange) := by
  have h63 : (2 : Nat) ^ 63 = 9223372036854775808 := by norm_num
  refine ⟨?_, rfl, fun s ds hs hne hd hv => parse_plain_range U s ds hs hne hd hv⟩
  intro s ds u rest hnorm hd hu
  have h := parse_digits_unit U s ds u rest hnorm hd hu
  by_cases hne : ds = []
  · simp only [hne, if_true] at h
    refine ⟨⟨fun _ => Or.inl hne, fun _ => ⟨_, h⟩⟩, ?_⟩
    intro e he
    rw [h] at he
    cases he
    exact ⟨Or.inl rfl, by decide⟩
  · simp only [hne, if_false] at h
    by_cases hv : decimalValue ds < 2 ^ 63
    · simp only [hv, if_true] at h
      refine ⟨⟨?_, ?_⟩, ?_⟩
      · rintro ⟨e, he⟩
        rw [h] at he
        cases he
      · rintro (h1 | h1)
        · exact absurd h1 hne
        · omega
      · intro e he
        rw [h] at he
        cases he
    · simp only [hv, if_false] at h
      refine ⟨⟨fun _ => Or.inr (by omega), fun _ => ⟨_, h⟩⟩, ?_⟩
      intro e he
      rw [h] at he
      cases he
      exact ⟨Or.inr rfl, by decide⟩

theorem parseSizeBytes_numeric_errors_witness :
    ((∃ e, parseSizeBytes UnicodeTables.latin1 "9223372036854775808 KiB".toList =
        Except.error e) ↔
      ("9223372036854775808".toList = [] ∨
        2 ^ 63 - 1 < decimalValue "9223372036854775808".toList)) ∧
    (∀ e, parseSizeBytes UnicodeTables.latin1 "9223372036854775808 KiB".toList =
        Except.error e →
      (e = GoError.NumErrSyntax ∨ e = GoError.NumErrRange) ∧ e ≠ GoError.ErrInvalidUnit) :=
  (parseSizeBytes_numeric_errors UnicodeTables.latin1).1 "9223372036854775808 KiB".toList
    "9223372036854775808".toList 'k' "ib".toList rfl (by decide) (by decide)

/-! ## A key stream with short reads -/

theorem Reader.ofChunks_nil : Reader.ofChunks [] = ⟨[]⟩ := rfl

theorem Reader.ofChunks_cons (c : List Nat) (cs : List (List Nat)) :
    Reader.ofChunks (c :: cs) = ⟨⟨c, none⟩ :: (Reader.ofChunks cs).steps⟩ := rfl

theorem Reader.remaining_ofChunks (cs : List (List Nat)) :
    (Reader.ofChunks cs).remaining = cs.flatten := by
  simp [Reader.ofChunks, Reader.remaining, Function.comp_def]

/-- The loop of `io.ReadAtLeast` on a stream with short reads and without
errors that still holds enough bytes: it ends without error, with at least
`min` bytes in the buffer, and these are the next bytes of the stream. -/
theorem readAtLeastLoop_chunks (c fuel : Nat) (cs : List (List Nat)) (buf : List Nat) (n : Nat)
    (hn : n ≤ buf.length) (hc : c ≤ buf.length) (hK : c ≤ n + cs.flatten.length)
    (n' : Nat) (e : Option GoError) (r' : Reader) (buf' : List Nat)
    (hrun : readAtLeastLoop c fuel (Reader.ofChunks cs) buf n none = some (n', e, r', buf')) :
    e = none ∧ c ≤ n' ∧ n ≤ n' ∧ n' ≤ buf.length ∧ buf'.length = buf.length ∧
      buf'.take n' = buf.take n ++ cs.flatten.take (n' - n) ∧
      ∃ cs', r' = Reader.ofChunks cs' ∧ cs'.flatten = cs.flatten.drop (n' - n) := by
  induction fuel generalizing cs buf n with
  | zero => simp [readAtLeastLoop] at hrun
  | succ fuel ih =>
    by_cases hlt : n < c
    · rw [readAtLeastLoop_step _ _ _ _ _ hlt] at hrun
      cases cs with
      | nil => simp at hK; omega
      | cons ch rest =>
        by_cases hfit : ch.length ≤ buf.length - n
        · have hread : (Reader.ofChunks (ch :: rest)).Read (buf.length - n) =
              (ch, none, Reader.ofChunks rest) := by
            simp [Reader.ofChunks, Reader.Read, hfit]
          rw [hread] at hrun
          simp only at hrun
          have hlen : (List.take n buf ++ ch ++ List.drop (n + ch.length) buf).length =
              buf.length := by
            simp only [List.length_append, List.length_take, List.length_drop]; omega
          obtain ⟨he, h1, h2, h3, h4, h5, cs', h6, h7⟩ := ih rest _ (n + ch.length)
            (by rw [hlen]; omega) (by rw [hlen]; exact hc)
            (by simp only [List.flatten_cons, List.length_append] at hK; omega) hrun
          rw [hlen] at h3 h4
          refine ⟨he, h1, by omega, h3, h4, ?_, cs', h6, ?_⟩
          · rw [h5]
            have ht : List.take (n + ch.length)
                (List.take n buf ++ ch ++ List.drop (n + ch.length) buf) =
                List.take n buf ++ ch := by
              rw [List.take_append_of_le_length
                (by simp only [List.length_append, List.length_take]; omega)]
              rw [List.take_of_length_le
                (by simp only [List.length_append, List.length_take]; omega)]
            rw [ht, List.flatten_cons, List.append_assoc]
            congr 1
            have hsplit : n' - n = ch.length + (n' - (n + ch.length)) := by omega
            rw [hsplit, List.take_append]
          · rw [h7, List.flatten_cons]
            have hsplit : n' - n = ch.length + (n' - (n + ch.length)) := by omega
            rw [hsplit, List.drop_append]
        · have hread : (Reader.ofChunks (ch :: rest)).Read (buf.length - n) =
              (ch.take (buf.length - n), none,
                Reader.ofChunks (ch.drop (buf.length - n) :: rest)) := by
            simp [Reader.ofChunks, Reader.Read, hfit]
          rw [hread] at hrun
          simp only at hrun
          have hbs : (List.take (buf.length - n) ch).length = buf.length - n := by
            simp only [List.length_take]; omega
          rw [hbs] at hrun
          have hfull : n + (buf.length - n) = buf.length := by omega
          rw [hfull] at hrun
          have hlen : (List.take n buf ++ List.take (buf.length - n) ch ++
              List.drop buf.length buf).length = buf.length := by
            simp only [List.length_append, List.length_take, List.length_drop]; omega
          have hstop : ¬ (buf.length < c ∧ (none : Option GoError) = none) := by
            intro h; omega
          cases fuel with
          | zero => simp [readAtLeastLoop] at hrun
          | succ fuel =>
            rw [readAtLeastLoop_stop _ _ _ _ _ _ hstop] at hrun
            simp only [Option.some.injEq, Prod.mk.injEq] at hrun
            obtain ⟨h1, h2, h3, h4⟩ := hrun
            subst h1 h2 h3 h4
            refine ⟨rfl, hc, hn, Nat.le_refl _, hlen, ?_, _, rfl, ?_⟩
            · rw [List.drop_length, List.append_nil, List.take_of_length_le
                (by simp only [List.length_append, List.length_take]; omega)]
              congr 1
              rw [List.flatten_cons, List.take_append_of_le_length (by omega)]
            · rw [List.flatten_cons, List.flatten_cons, List.drop_append_of_le_length (by omega)]
    · cases fuel with
      | zero =>
        rw [readAtLeastLoop_stop _ _ _ _ _ _ (by intro h; exact hlt h.1)] at hrun
        simp only [Option.some.injEq, Prod.mk.injEq] at hrun
        obtain ⟨h1, h2, h3, h4⟩ := hrun
        subst h1 h2 h3 h4
        exact ⟨rfl, by omega, Nat.le_refl _, hn, rfl, by simp, cs, rfl, by simp⟩
      | succ fuel =>
        rw [readAtLeastLoop_stop _ _ _ _ _ _ (by intro h; exact hlt h.1)] at hrun
        simp only [Option.some.injEq, Prod.mk.injEq] at hrun
        obtain ⟨h1, h2, h3, h4⟩ := hrun
        subst h1 h2 h3 h4
        exact ⟨rfl, by omega, Nat.le_refl _, hn, rfl, by simp, cs, rfl, by simp⟩

/-- `io.ReadAtLeast` on a stream with short reads and without errors that
still holds `min` bytes: it succeeds, and the buffer begins with the next
bytes of the stream, at least `min` of them. -/
theorem ReadAtLeast_chunks (cs : List (List Nat)) (buf : List Nat) (c : Nat)
    (hc : c ≤ buf.length) (hK : c ≤ cs.flatten.length) :
    ∃ n' cs' buf', ReadAtLeast (Reader.ofChunks cs) buf c =
        some (n', none, Reader.ofChunks cs', buf') ∧
      c ≤ n' ∧ n' ≤ buf.length ∧ buf'.length = buf.length ∧
      buf'.take n' = cs.flatten.take n' ∧ cs'.flatten = cs.flatten.drop n' := by
  have hsome := readAtLeastLoop_isSome c ((Reader.ofChunks cs).weight + 2) (Reader.ofChunks cs)
    buf 0 none hc (by simp)
  obtain ⟨⟨n', e, r', buf'⟩, hrun⟩ := Option.isSome_iff_exists.mp hsome
  obtain ⟨he, h1, -, h3, h4, h5, cs', h6, h7⟩ := readAtLeastLoop_chunks c _ cs buf 0
    (Nat.zero_le _) hc (by omega) n' e r' buf' hrun
  subst he h6
  refine ⟨n', cs', buf', ?_, h1, h3, h4, by simpa using h5, by simpa using h7⟩
  unfold ReadAtLeast
  rw [if_neg (by omega), hrun]
  simp only [ge_iff_le, h1, if_true]

/-- An iteration of the loop of `xorStreams` with input bytes `bs` just read
into the message buffer and a key stream with short reads that still holds as
many bytes: the bytes written are `bs` XOR the next key bytes. -/
theorem xorPrefix_chunk_of_take (bs rest keyBuf K : List Nat) (n' : Nat)
    (hn : bs.length ≤ n') (hlen : n' ≤ keyBuf.length)
    (hbuf : keyBuf.take n' = K.take n') :
    List.take bs.length (xorPrefix bs.length (bs ++ rest) keyBuf) =
      List.zipWith (· ^^^ ·) bs K := by
  rw [xorPrefix_take _ _ _ (by omega), List.take_left,
    ← zipWith_take_right_of_le _ bs keyBuf n' hn, hbuf, zipWith_take_right_of_le _ bs K n' hn]

/-- An iteration on a full buffer of input, with a key stream with short
reads that holds a full buffer: exactly `bufferSize` bytes are taken from
both streams. -/
theorem xorLoop_full_chunks (fuel : Nat) (cs : List (List Nat)) (P o msgBuf keyBuf : List Nat)
    (written : Nat) (hmb : msgBuf.length = bufferSize) (hkb : keyBuf.length = bufferSize)
    (hP : bufferSize ≤ P.length) (hK : bufferSize ≤ cs.flatten.length) :
    ∃ cs' msgBuf' keyBuf', msgBuf'.length = bufferSize ∧ keyBuf'.length = bufferSize ∧
      cs'.flatten = cs.flatten.drop bufferSize ∧
      xorLoop (fuel + 1) (Reader.ofChunks cs) (Reader.ofBytes P) (Writer.unbounded o)
          msgBuf keyBuf written =
        xorLoop fuel (Reader.ofChunks cs') (Reader.ofBytes (P.drop bufferSize))
          (Writer.unbounded (o ++ List.zipWith (· ^^^ ·) (P.take bufferSize) cs.flatten))
          msgBuf' keyBuf' (written + bufferSize) := by
  have hpos := bufferSize_pos
  have hPne : P ≠ [] := List.length_pos.mp (by omega)
  have hlen : (List.take bufferSize P).length = bufferSize := by
    simp only [List.length_take]; omega
  obtain ⟨n', cs', kb', hrd, h1, h2, h3, h4, h5⟩ :=
    ReadAtLeast_chunks cs keyBuf bufferSize (by omega) hK
  have hn' : n' = bufferSize := by omega
  subst hn'
  refine ⟨cs', xorPrefix bufferSize (P.take bufferSize ++ msgBuf.drop bufferSize) kb', kb',
    ?_, by omega, h5, ?_⟩
  · simp only [xorPrefix_length, List.length_append, List.length_take, List.length_drop]
    omega
  · rw [xorLoop, hmb, Reader.Read_ofBytes]
    simp only [hPne, if_false, ne_eq, not_true_eq_false, false_and, hlen]
    rw [hrd]
    simp only [not_true_eq_false, if_false, Writer.Write_unbounded, xorPrefix_length,
      List.length_append, List.length_drop, hmb, hlen]
    have hchunk := xorPrefix_chunk_of_take (P.take bufferSize) (msgBuf.drop bufferSize) kb'
      cs.flatten bufferSize (by omega) (by omega) h4
    rw [hlen] at hchunk
    rw [hchunk]
    have hnlt : ¬ (bufferSize < bufferSize + (bufferSize - bufferSize)) := by omega
    simp only [hnlt, if_false, List.length_zipWith, hlen]
    rw [Nat.min_eq_left hK]

/-- The last iteration, with a key stream with short reads that holds at
least as many bytes as the input. -/
theorem xorLoop_last_chunks (fuel : Nat) (cs : List (List Nat)) (P o msgBuf keyBuf : List Nat)
    (written : Nat) (hmb : msgBuf.length = bufferSize) (hkb : keyBuf.length = bufferSize)
    (hP0 : 0 < P.length) (hP : P.length < bufferSize) (hK : P.length ≤ cs.flatten.length) :
    ∃ key', xorLoop (fuel + 1) (Reader.ofChunks cs) (Reader.ofBytes P) (Writer.unbounded o)
        msgBuf keyBuf written =
      some ⟨written + P.length, none, key', ⟨[]⟩,
        Writer.unbounded (o ++ List.zipWith (· ^^^ ·) P cs.flatten)⟩ := by
  have hPne : P ≠ [] := List.length_pos.mp hP0
  have htake : List.take bufferSize P = P := List.take_of_length_le (by omega)
  have hdrop : List.drop bufferSize P = [] := List.drop_of_length_le (by omega)
  obtain ⟨n', cs', kb', hrd, h1, h2, h3, h4, h5⟩ :=
    ReadAtLeast_chunks cs keyBuf P.length (by omega) hK
  refine ⟨Reader.ofChunks cs', ?_⟩
  rw [xorLoop, hmb, Reader.Read_ofBytes]
  simp only [hPne, if_false, htake, hdrop, ne_eq, not_true_eq_false, false_and]
  rw [hrd]
  simp only [not_true_eq_false, if_false, Writer.Write_unbounded, xorPrefix_length,
    List.length_append, List.length_drop, hmb]
  rw [xorPrefix_chunk_of_take P _ kb' cs.flatten n' h1 (by omega) h4]
  have hlt : P.length < P.length + (bufferSize - P.length) := by omega
  simp only [hlt, if_true, List.length_zipWith, Reader.ofBytes_nil]
  rw [Nat.min_eq_left hK]

/-- The whole loop with a key stream with short reads that holds at least as
many bytes as the input: the same count and the same output as with a key
stream that fills each read. -/
theorem xorLoop_ok_chunks (fuel : Nat) (cs : List (List Nat)) (P o msgBuf keyBuf : List Nat)
    (written : Nat) (hmb : msgBuf.length = bufferSize) (hkb : keyBuf.length = bufferSize)
    (hK : P.length ≤ cs.flatten.length) (hfuel : P.length < fuel) :
    ∃ key', xorLoop fuel (Reader.ofChunks cs) (Reader.ofBytes P) (Writer.unbounded o)
        msgBuf keyBuf written =
      some ⟨written + P.length, none, key', ⟨[]⟩,
        Writer.unbounded (o ++ List.zipWith (· ^^^ ·) P cs.flatten)⟩ := by
  induction fuel generalizing cs P o msgBuf keyBuf written with
  | zero => omega
  | succ fuel ih =>
    by_cases hP0 : P = []
    · subst hP0
      refine ⟨Reader.ofChunks cs, ?_⟩
      rw [Reader.ofBytes_nil, xorLoop_input_done _ _ _ _ _ _ (by rw [hmb]; exact bufferSize_pos)]
      simp
    · have hpos : 0 < P.length := List.length_pos.mpr hP0
      by_cases hP : P.length < bufferSize
      · exact xorLoop_last_chunks fuel cs P o msgBuf keyBuf written hmb hkb hpos hP hK
      · obtain ⟨cs', mb', kb', hmb', hkb', hcs', hstep⟩ :=
          xorLoop_full_chunks fuel cs P o msgBuf keyBuf written hmb hkb (by omega) (by omega)
        obtain ⟨key', hrest⟩ := ih cs' (P.drop bufferSize)
          (o ++ List.zipWith (· ^^^ ·) (P.take bufferSize) cs.flatten) mb' kb'
          (written + bufferSize) hmb' hkb'
          (by rw [hcs']; simp only [List.length_drop]; omega)
          (by simp only [List.length_drop]; have := bufferSize_pos; omega)
        refine ⟨key', ?_⟩
        rw [hstep, hrest, hcs']
        have hw : written + bufferSize + (P.drop bufferSize).length = written + P.length := by
          simp only [List.length_drop]; omega
        rw [hw, List.append_assoc, zipWith_take_append_drop]

/-- C18: for an input `P` and a key `K` at least as long, `xorStreams` with a
key stream that hands out `K` in any pieces, empty ones included (short reads
without end of stream), succeeds and writes `P XOR K`, the same output and count as with a
key stream that fills every read. -/
theorem xorStreams_key_short_reads (P K out : List Nat) (chunks : List (List Nat))
    (hsplit : chunks.flatten = K) (h : P.length ≤ K.length) :
    ∃ r r', xorStreams (Reader.ofChunks chunks) (Reader.ofBytes P) (Writer.unbounded out) =
        some r ∧
      xorStreams (Reader.ofBytes K) (Reader.ofBytes P) (Writer.unbounded out) = some r' ∧
      r.err = none ∧ r'.err = none ∧ r.written = r'.written ∧ r.output = r'.output ∧
      r.output.out = out ++ List.zipWith (· ^^^ ·) P K := by
  subst hsplit
  obtain ⟨key', hrun⟩ := xorLoop_ok_chunks ((Reader.ofBytes P).size + 1) chunks P out
    (List.replicate bufferSize 0) (List.replicate bufferSize 0) 0
    (List.length_replicate bufferSize 0) (List.length_replicate bufferSize 0) h
    (by rw [Reader.size_ofBytes]; omega)
  have hrun' := xorLoop_ok ((Reader.ofBytes P).size + 1) chunks.flatten P out
    (List.replicate bufferSize 0) (List.replicate bufferSize 0) 0
    (List.length_replicate bufferSize 0) (List.length_replicate bufferSize 0) h
    (by rw [Reader.size_ofBytes]; omega)
  exact ⟨_, _, hrun, hrun', rfl, rfl, rfl, rfl, rfl⟩

theorem xorStreams_key_short_reads_witness :
    ∃ r r', xorStreams (Reader.ofChunks [[5], [6, 7]]) (Reader.ofBytes [1, 2])
        (Writer.unbounded []) = some r ∧
      xorStreams (Reader.ofBytes [5, 6, 7]) (Reader.ofBytes [1, 2]) (Writer.unbounded []) =
        some r' ∧
      r.err = none ∧ r'.err = none ∧ r.written = r'.written ∧ r.output = r'.output ∧
      r.output.out = [] ++ List.zipWith (· ^^^ ·) [1, 2] [5, 6, 7] :=
  xorStreams_key_short_reads [1, 2] [5, 6, 7] [] [[5], [6, 7]] rfl (by decide)

/-! ## The model of `generateKeys` always returns -/

theorem copyLoop_isSome (rng : Nat → Nat) (size fuel : Nat) (remaining : Int) (f : File)
    (w : World) (written : Int) (hsize : 1 ≤ size) (hfuel : remaining.toNat < fuel) :
    (copyLoop rng size fuel remaining f w written).isSome = true := by
  induction fuel generalizing remaining f w written with
  | zero => omega
  | succ fuel ih =>
    unfold copyLoop
    by_cases hrem : remaining ≤ 0
    · simp only [hrem, if_true, Option.isSome_some]
    · have hnr : Nat.min size remaining.toNat > 0 := by
        simp only [Nat.min_def]
        split <;> omega
      simp only [hrem, if_false, randRead, hnr, if_true]
      rcases hw : f.Write (List.map (fun k => rng (w.randPos + k) % 256)
          (List.range (Nat.min size remaining.toNat)))
          { w with randPos := w.randPos + Nat.min size remaining.toNat } with ⟨nw, ew, f', w₂⟩
      simp only
      split
      · rfl
      · split
        · rfl
        · apply ih
          omega

theorem CopyN_isSome (rng : Nat → Nat) (f : File) (n : Int) (w : World) :
    (CopyN rng f n w).isSome = true := by
  unfold CopyN
  have hsize : 1 ≤ (if n < 32768 then (if n < 1 then 1 else n.toNat) else 32768 : Nat) := by
    split
    · split <;> omega
    · omega
  have hl := copyLoop_isSome rng _ (n.toNat + 1) n f w 0 hsize (by omega)
  obtain ⟨⟨written, err, f', w'⟩, hv⟩ := Option.isSome_iff_exists.mp hl
  simp only [hv]
  split
  · rfl
  · split <;> rfl

theorem generateKey_isSome (rng : Nat → Nat) (filePath : List Char) (genSize : Int)
    (w : World) : (generateKey rng filePath genSize w).isSome = true := by
  unfold generateKey
  rcases ho : OpenFile w filePath O_CREATE createFilePerm with ⟨res, w₁⟩
  cases res with
  | error err => rfl
  | ok file =>
    obtain ⟨⟨written, err, f', w'⟩, hv⟩ :=
      Option.isSome_iff_exists.mp (CopyN_isSome rng file genSize w₁)
    simp only [hv]
    rfl

/-- The 64-bit value of an integer lies in the range of `int64` and is the
integer itself when that lies in the range. -/
theorem wrapInt64_range (x : Int) : -2 ^ 63 ≤ wrapInt64 x ∧ wrapInt64 x ≤ 2 ^ 63 - 1 := by
  unfold wrapInt64
  have h63 : (2 : Int) ^ 63 = 9223372036854775808 := by norm_num
  have h64 : (2 : Int) ^ 64 = 18446744073709551616 := by norm_num
  rw [h63, h64]
  omega

theorem wrapInt64_of_isInt64 (x : Int) (h0 : -2 ^ 63 ≤ x) (h1 : x ≤ 2 ^ 63 - 1) :
    wrapInt64 x = x := by
  unfold wrapInt64
  have h63 : (2 : Int) ^ 63 = 9223372036854775808 := by norm_num
  have h64 : (2 : Int) ^ 64 = 18446744073709551616 := by norm_num
  rw [h63] at h0 h1
  rw [h63, h64]
  omega

theorem wrapInt64_succ_gt (i bound : Int) (hi : i < bound) (hb : bound ≤ 2 ^ 63 - 1) :
    i < wrapInt64 (i + 1) := by
  unfold wrapInt64
  have h63 : (2 : Int) ^ 63 = 9223372036854775808 := by norm_num
  have h64 : (2 : Int) ^ 64 = 18446744073709551616 := by norm_num
  rw [h63] at hb
  rw [h63, h64]
  omega

theorem generateKeysLoop_isSome (rng : Nat → Nat) (outputPath : List Char) (genSize bound : Int)
    (fuel : Nat) (i : Int) (w : World) (hb : bound ≤ 2 ^ 63 - 1)
    (hfuel : (bound - i).toNat < fuel) :
    (generateKeysLoop rng outputPath genSize bound fuel i w).isSome = true := by
  induction fuel generalizing i w with
  | zero => omega
  | succ fuel ih =>
    unfold generateKeysLoop
    by_cases hi : i < bound
    · simp only [hi, if_true]
      obtain ⟨⟨err, w'⟩, hv⟩ := Option.isSome_iff_exists.mp
        (generateKey_isSome rng (ReplaceAll outputPath placeholder (Itoa i)) genSize w)
      rw [hv]
      cases err with
      | some e => rfl
      | none =>
        simp only
        apply ih
        have := wrapInt64_succ_gt i bound hi hb
        omega
    · simp only [hi, if_false, Option.isSome_some]

/-- The model of `generateKeys` returns a result for all arguments: the
iteration bounds it is given are never reached. -/
theorem generateKeys_isSome (U : UnicodeTables) (rng : Nat → Nat)
    (outputPath generate : List Char) (genCount genOffset : Int) (w : World) :
    (generateKeys U rng outputPath generate genCount genOffset w).isSome = true := by
  unfold generateKeys
  split
  · rfl
  · split
    · rfl
    · split
      · exact generateKey_isSome _ _ _ _
      · split
        · rfl
        · exact generateKeysLoop_isSome _ _ _ _ _ _ _ (wrapInt64_range _).2 (by omega)

/-! ## What `generateKey` leaves in the world -/

theorem World.keeps_refl (w : World) : w.keeps w := ⟨rfl, fun _ h => h⟩

theorem World.keeps_trans {w₁ w₂ w₃ : World} (h₁ : w₁.keeps w₂) (h₂ : w₂.keeps w₃) :
    w₁.keeps w₃ :=
  ⟨h₂.1.trans h₁.1, fun q h => h₂.2 q (h₁.2 q h)⟩

theorem lookup_setFile_isSome (files : List (List Char × List Nat)) (name : List Char)
    (content : List Nat) (q : List Char) :
    ((setFile files name content).lookup q).isSome = (files.lookup q).isSome := by
  induction files with
  | nil => rfl
  | cons f fs ih =>
    obtain ⟨p, c⟩ := f
    by_cases hn : p = name
    · have hcons : setFile ((p, c) :: fs) name content =
          (p, content) :: setFile fs name content := by
        simp [setFile, hn]
      rw [hcons, List.lookup_cons, List.lookup_cons]
      cases hqp : (q == p)
      · exact ih
      · rfl
    · have hcons : setFile ((p, c) :: fs) name content = (p, c) :: setFile fs name content := by
        simp [setFile, hn]
      rw [hcons, List.lookup_cons, List.lookup_cons]
      cases hqp : (q == p)
      · exact ih
      · rfl

/-- Opening a file changes neither the random source nor the record of calls,
keeps the world, and on success the file exists and is open with the flag given. -/
theorem OpenFile_spec (w : World) (name : List Char) (flag perm : Nat)
    (res : Except GoError File) (w₁ : World) (h : OpenFile w name flag perm = (res, w₁)) :
    w₁.calls = w.calls ∧ w₁.randPos = w.randPos ∧ w.keeps w₁ ∧
      ∀ f, res = Except.ok f → f = ⟨name, flag, 0⟩ ∧ (w₁.files.lookup name).isSome = true := by
  unfold OpenFile at h
  split at h
  · cases h
    exact ⟨rfl, rfl, World.keeps_refl w, fun f hf => by cases hf⟩
  · split at h
    · rename_i c hf
      cases h
      refine ⟨rfl, rfl, World.keeps_refl w, fun f h => ?_⟩
      cases h
      exact ⟨rfl, by rw [hf]; rfl⟩
    · rename_i hf
      split at h
      · cases h
        refine ⟨rfl, rfl, ⟨rfl, fun q hq => ?_⟩, fun f h => ?_⟩
        · simp only [List.lookup_append, Option.isSome_or, hq, Bool.true_or]
        · cases h
          refine ⟨rfl, ?_⟩
          simp [List.lookup_append, hf]
      · cases h
        exact ⟨rfl, rfl, World.keeps_refl w, fun f hf => by cases hf⟩

theorem File.Write_spec (f : File) (b : List Nat) (w : World) :
    (f.Write b w).2.2.2.calls = w.calls ∧ w.keeps (f.Write b w).2.2.2 ∧
      (f.Write b w).2.2.1.flag = f.flag := by
  unfold File.Write
  split
  · exact ⟨rfl, World.keeps_refl w, rfl⟩
  · refine ⟨rfl, ⟨rfl, fun q hq => ?_⟩, rfl⟩
    simp only [lookup_setFile_isSome]
    exact hq

theorem copyLoop_spec (rng : Nat → Nat) (size fuel : Nat) (remaining : Int) (f : File)
    (w : World) (written : Int) (res : Int × Option GoError × File × World)
    (h : copyLoop rng size fuel remaining f w written = some res) :
    res.2.2.2.calls = w.calls ∧ w.keeps res.2.2.2 := by
  induction fuel generalizing remaining f w written with
  | zero => simp [copyLoop] at h
  | succ fuel ih =>
    unfold copyLoop at h
    by_cases hrem : remaining ≤ 0
    · simp only [hrem, if_true, Option.some.injEq] at h
      subst h
      exact ⟨rfl, World.keeps_refl w⟩
    · simp only [hrem, if_false, randRead] at h
      have hw₁ : w.keeps { w with randPos := w.randPos + Nat.min size remaining.toNat } :=
        ⟨rfl, fun _ hq => hq⟩
      split at h
      · have hspec := File.Write_spec f (List.map (fun k => rng (w.randPos + k) % 256)
          (List.range (Nat.min size remaining.toNat)))
          { w with randPos := w.randPos + Nat.min size remaining.toNat }
        rcases hwr : f.Write (List.map (fun k => rng (w.randPos + k) % 256)
          (List.range (Nat.min size remaining.toNat)))
          { w with randPos := w.randPos + Nat.min size remaining.toNat } with ⟨nw, ew, f', w₂⟩
        rw [hwr] at h hspec
        simp only at h hspec
        split at h
        · simp only [Option.some.injEq] at h
          subst h
          exact ⟨hspec.1, World.keeps_trans hw₁ hspec.2.1⟩
        · split at h
          · simp only [Option.some.injEq] at h
            subst h
            exact ⟨hspec.1, World.keeps_trans hw₁ hspec.2.1⟩
          · have := ih _ _ _ _ h
            exact ⟨this.1.trans hspec.1, World.keeps_trans hw₁
              (World.keeps_trans hspec.2.1 this.2)⟩
      · have := ih _ _ _ _ h
        exact ⟨this.1, World.keeps_trans hw₁ this.2⟩

theorem CopyN_spec (rng : Nat → Nat) (f : File) (n : Int) (w : World)
    (res : Int × Option GoError × File × World) (h : CopyN rng f n w = some res) :
    res.2.2.2.calls = w.calls ∧ w.keeps res.2.2.2 := by
  unfold CopyN at h
  simp only at h
  split at h
  · cases h
  · rename_i written err f' w' hl
    have hs := copyLoop_spec _ _ _ _ _ _ _ _ hl
    split at h
    · simp only [Option.some.injEq] at h
      subst h
      exact hs
    · split at h <;>
      · simp only [Option.some.injEq] at h
        subst h
        exact hs

/-- A call of `generateKey` adds itself and its result to the record of calls,
keeps the world, and when it returns no error the file at its path exists. -/
theorem generateKey_spec (rng : Nat → Nat) (filePath : List Char) (genSize : Int)
    (w w' : World) (err : Option GoError)
    (h : generateKey rng filePath genSize w = some (err, w')) :
    w'.calls = w.calls ++ [(filePath, genSize, err)] ∧ w.keeps w' ∧
      (err = none → (w'.files.lookup filePath).isSome = true) := by
  unfold generateKey at h
  rcases hopen : OpenFile w filePath O_CREATE createFilePerm with ⟨res, w₁⟩
  have ho := OpenFile_spec w filePath O_CREATE createFilePerm res w₁ hopen
  rw [hopen] at h
  cases res with
  | error e =>
    simp only [Option.some.injEq, Prod.mk.injEq] at h
    obtain ⟨h1, h2⟩ := h
    subst h1 h2
    refine ⟨by simp only [ho.1], ⟨ho.2.2.1.1, ho.2.2.1.2⟩, fun hn => by cases hn⟩
  | ok file =>
    simp only at h
    split at h
    · cases h
    · rename_i written err' f' w₂ hc
      have hs := CopyN_spec _ _ _ _ _ hc
      simp only at hs
      simp only [Option.some.injEq, Prod.mk.injEq] at h
      obtain ⟨h1, h2⟩ := h
      subst h1 h2
      have hk : w.keeps w₂ := World.keeps_trans ho.2.2.1 hs.2
      refine ⟨by simp only [hs.1, ho.1], ⟨hk.1, hk.2⟩, fun _ => ?_⟩
      exact hs.2.2 filePath (ho.2.2.2 file rfl).2

/-! ## The loop of `generateKeys` -/

theorem batchCalls_zero (template : List Char) (size offset : Int) (last : Option GoError) :
    batchCalls template size offset 0 last = [] := rfl

theorem batchCalls_succ (template : List Char) (size offset : Int) (k : Nat)
    (last : Option GoError) :
    batchCalls template size offset (k + 1) last =
      (keyPath template offset, size, if k = 0 then last else none) ::
        batchCalls template size (offset + 1) k last := by
  unfold batchCalls
  rw [List.range_succ_eq_map, List.map_cons, List.map_map]
  congr 1
  · simp
  · apply List.map_congr_left
    intro j _
    simp only [Function.comp, Nat.succ_eq_add_one, Nat.cast_add, Nat.cast_one,
      Nat.add_right_cancel_iff]
    rw [show offset + ((j : Int) + 1) = offset + 1 + (j : Int) by omega]

theorem batchCalls_getElem? (template : List Char) (size offset : Int) (k p : Nat)
    (last : Option GoError) :
    (batchCalls template size offset k last)[p]? =
      if p < k then
        some (keyPath template (offset + (p : Int)), size, if p + 1 = k then last else none)
      else none := by
  unfold batchCalls
  rw [List.getElem?_map]
  by_cases hp : p < k
  · simp [hp, List.getElem?_range hp]
  · simp [hp, List.getElem?_eq_none (by simp; omega : (List.range k).length ≤ p)]

/-- The loop of `generateKeys` from the index `i` on: it calls `generateKey`
for consecutive indices in ascending order, stops at the first call that
returns an error and returns that error, and else goes on up to the bound;
the files of the calls that returned no error exist afterwards. -/
theorem generateKeysLoop_spec (rng : Nat → Nat) (template : List Char) (size bound : Int)
    (fuel : Nat) (i : Int) (w w' : World) (err : Option GoError) (hi : -2 ^ 63 ≤ i)
    (hb : bound ≤ 2 ^ 63 - 1)
    (h : generateKeysLoop rng template size bound fuel i w = some (err, w')) :
    ∃ k : Nat, w'.calls = w.calls ++ batchCalls template size i k err ∧
      (k = 0 ∨ i + (k : Int) ≤ bound) ∧ (err = none → bound ≤ i + (k : Int)) ∧
      (err ≠ none → 1 ≤ k) ∧ w.keeps w' ∧
      ∀ j : Nat, j < k → (j + 1 < k ∨ err = none) →
        (w'.files.lookup (keyPath template (i + (j : Int)))).isSome = true := by
  induction fuel generalizing i w with
  | zero => simp [generateKeysLoop] at h
  | succ fuel ih =>
    unfold generateKeysLoop at h
    by_cases hlt : i < bound
    · simp only [hlt, if_true] at h
      rcases hg : generateKey rng (ReplaceAll template placeholder (Itoa i)) size w with
        _ | ⟨e, w₁⟩
      · rw [hg] at h
        cases h
      · rw [hg] at h
        have hspec := generateKey_spec rng _ size w w₁ e hg
        cases e with
        | some e =>
          simp only [Option.some.injEq, Prod.mk.injEq] at h
          obtain ⟨h1, h2⟩ := h
          subst h1 h2
          refine ⟨1, ?_, Or.inr (by push_cast; omega), fun hn => Option.noConfusion hn,
            fun _ => Nat.le_refl 1, hspec.2.1, ?_⟩
          · rw [hspec.1, batchCalls_succ, batchCalls_zero]
            rfl
          · intro j hj hor
            rcases hor with hor | hor
            · omega
            · cases hor
        | none =>
          simp only at h
          have hwrap : wrapInt64 (i + 1) = i + 1 := wrapInt64_of_isInt64 _ (by omega) (by omega)
          rw [hwrap] at h
          obtain ⟨k, hcalls, hA, hB, hC, hD, hE⟩ := ih (i + 1) w₁ (by omega) h
          refine ⟨k + 1, ?_, Or.inr ?_, ?_, fun _ => by omega,
            World.keeps_trans hspec.2.1 hD, ?_⟩
          · rw [hcalls, hspec.1, batchCalls_succ, List.append_assoc]
            congr 1
            by_cases hk : k = 0
            · have herr : err = none := by
                by_contra hne
                have := hC hne
                omega
              simp only [hk, if_true, herr]
              rfl
            · simp only [hk, if_false]
              rfl
          · rcases hA with hA | hA
            · subst hA
              push_cast
              omega
            · push_cast
              omega
          · intro hn
            have := hB hn
            push_cast
            omega
          · intro j hj hor
            cases j with
            | zero =>
              have h0 := hspec.2.2 rfl
              have := hD.2 _ h0
              simpa [keyPath] using this
            | succ j =>
              have := hE j (by omega) (by
                rcases hor with hor | hor
                · exact Or.inl (by omega)
                · exact Or.inr hor)
              rw [show i + ((j + 1 : Nat) : Int) = i + 1 + (j : Int) by push_cast; omega]
              exact this
    · simp only [hlt, if_false, Option.some.injEq, Prod.mk.injEq] at h
      obtain ⟨h1, h2⟩ := h
      subst h1 h2
      exact ⟨0, by simp [batchCalls_zero], Or.inl rfl, fun _ => by simpa using hlt,
        fun hne => absurd rfl hne, World.keeps_refl _, fun j hj => by omega⟩

theorem Contains_placeholder_ne_nil (template : List Char)
    (h : Contains placeholder template = true) : template ≠ [] := by
  intro hnil
  subst hnil
  cases h

/-- In a batch `generateKeys` is the loop from `genOffset` up to the 64-bit
value of `genCount+genOffset`. -/
theorem generateKeys_batch (U : UnicodeTables) (rng : Nat → Nat) (template generate : List Char)
    (count offset size : Int) (w : World) (hsize : parseSizeBytes U generate = Except.ok size)
    (hcont : Contains placeholder template = true) (hcount : count ≠ 1) :
    generateKeys U rng template generate count offset w =
      generateKeysLoop rng template size (wrapInt64 (count + offset))
        ((wrapInt64 (count + offset) - offset).toNat + 1) offset w := by
  unfold generateKeys
  simp only [Contains_placeholder_ne_nil template hcont, if_false, hsize, hcount, hcont,
    Bool.not_true, Bool.false_eq_true]

/-! ## The properties of `generateKeys` -/

/-- The batch of the specification: with the template `key-{i}.bin`, the
offset 2, the count 3 and the size 0, in a world without files,
`generateKeys` creates `key-2.bin`, `key-3.bin` and `key-4.bin`, in this
order, and returns no error. -/
theorem generateKeys_example :
    generateKeys UnicodeTables.latin1 (fun _ => 0) "key-{i}.bin".toList "0".toList 3 2
        World.empty =
      some (none,
        ⟨["key-2.bin".toList, "key-3.bin".toList, "key-4.bin".toList].map fun p => (p, []), [], 0,
          ["key-2.bin".toList, "key-3.bin".toList, "key-4.bin".toList].map fun p =>
            (p, 0, none)⟩) := by
  decide

/-- C13, as stated, fails in two ways. With the offset `2^63 - 1` and the
count 2 the sum `genCount+genOffset` wraps around to a negative bound, and
`generateKeys` returns without any call of `generateKey`. With the template
`d/key-{i}.bin`, the offset 2 and the count 3, in a world where `d/key-3.bin`
cannot be opened, `generateKey` is called for the indices 2 and 3 only. -/
theorem generateKeys_every_index_counterexample :
    generateKeys UnicodeTables.latin1 (fun _ => 0) "key-{i}.bin".toList "0".toList 2
        9223372036854775807 World.empty = some (none, World.empty) ∧
    generateKeys UnicodeTables.latin1 (fun _ => 0) "d/key-{i}.bin".toList "0".toList 3 2
        ⟨[], [("d/key-3.bin".toList, 2)], 0, []⟩ =
      some (some (GoError.ioError 2),
        ⟨[("d/key-2.bin".toList, [])], [("d/key-3.bin".toList, 2)], 0,
          [("d/key-2.bin".toList, 0, none),
            ("d/key-3.bin".toList, 0, some (GoError.ioError 2))]⟩) := by
  constructor <;> decide

/-- C13, amended: for a count above 1, an offset with `offset + count ≤ 2^63 - 1`
and a template that contains `{i}`, `generateKeys` with a valid size calls
`generateKey` for the indices `offset`, `offset + 1`, ... in ascending order,
each once, with the path in which every `{i}` is replaced by the decimal
string of the index and with the parsed size; it stops after the first call
that returns an error, and when it returns no error it has made exactly
`count` calls, one for each index in `[offset, offset + count)`. -/
theorem generateKeys_calls_in_order (U : UnicodeTables) (rng : Nat → Nat)
    (template generate : List Char) (count offset size : Int) (w : World)
    (hsize : parseSizeBytes U generate = Except.ok size)
    (hcont : Contains placeholder template = true) (hcount : 1 < count)
    (hoff : -2 ^ 63 ≤ offset) (hsum : offset + count ≤ 2 ^ 63 - 1) :
    ∃ (err : Option GoError) (w' : World) (k : Nat),
      generateKeys U rng template generate count offset w = some (err, w') ∧
      1 ≤ k ∧ (k : Int) ≤ count ∧
      w'.calls = w.calls ++ batchCalls template size offset k err ∧
      (err = none → (k : Int) = count) := by
  obtain ⟨⟨err, w'⟩, hrun⟩ := Option.isSome_iff_exists.mp
    (generateKeys_isSome U rng template generate count offset w)
  have hloop := hrun
  rw [generateKeys_batch U rng template generate count offset size w hsize hcont (by omega),
    wrapInt64_of_isInt64 (count + offset) (by omega) (by omega)] at hloop
  obtain ⟨k, hcalls, hA, hB, hC, -, -⟩ := generateKeysLoop_spec rng template size
    (count + offset) _ offset w w' err hoff (by omega) hloop
  refine ⟨err, w', k, hrun, ?_, ?_, hcalls, ?_⟩
  · by_cases he : err = none
    · have := hB he
      omega
    · exact hC he
  · rcases hA with hA | hA
    · subst hA
      push_cast
      omega
    · omega
  · intro he
    have := hB he
    rcases hA with hA | hA
    · subst hA
      push_cast at this
      omega
    · omega

theorem generateKeys_calls_in_order_witness :
    ∃ (err : Option GoError) (w' : World) (k : Nat),
      generateKeys UnicodeTables.latin1 (fun _ => 0) "key-{i}.bin".toList "0".toList 3 2
        World.empty = some (err, w') ∧
      1 ≤ k ∧ (k : Int) ≤ 3 ∧
      w'.calls = World.empty.calls ++ batchCalls "key-{i}.bin".toList 0 2 k err ∧
      (err = none → (k : Int) = 3) :=
  generateKeys_calls_in_order UnicodeTables.latin1 (fun _ => 0) "key-{i}.bin".toList
    "0".toList 3 2 0 World.empty rfl (by decide) (by decide) (by decide) (by decide)

/-- C14: for a count above 1, any offset, a valid size and a non-empty
template without `{i}`, `generateKeys` returns `ErrMissingPlaceholder` and
leaves the world as it was: no call of `generateKey`, no file. -/
theorem generateKeys_missing_placeholder (U : UnicodeTables) (rng : Nat → Nat)
    (template generate : List Char) (count offset size : Int) (w : World)
    (hpath : template ≠ []) (hsize : parseSizeBytes U generate = Except.ok size)
    (hcount : 1 < count) (hno : Contains placeholder template = false) :
    generateKeys U rng template generate count offset w =
      some (some GoError.ErrMissingPlaceholder, w) := by
  have hne : count ≠ 1 := by omega
  unfold generateKeys
  simp only [hpath, if_false, hsize, hne, hno, Bool.not_false, if_true]

theorem generateKeys_missing_placeholder_witness :
    generateKeys UnicodeTables.latin1 (fun _ => 0) "key.bin".toList "1M".toList 3 2
        World.empty =
      some (some GoError.ErrMissingPlaceholder, World.empty) :=
  generateKeys_missing_placeholder UnicodeTables.latin1 (fun _ => 0) "key.bin".toList
    "1M".toList 3 2 1000000 World.empty (by decide) rfl (by decide) (by decide)

/-- C15: with the count 1, a valid size and a non-empty output path,
`generateKeys` is the one call `generateKey(outputPath, genSize)`, which
returns: the path is taken as it is, with or without `{i}`, whatever the offset. -/
theorem generateKeys_single (U : UnicodeTables) (rng : Nat → Nat)
    (outputPath generate : List Char) (offset size : Int) (w : World)
    (hpath : outputPath ≠ []) (hsize : parseSizeBytes U generate = Except.ok size) :
    generateKeys U rng outputPath generate 1 offset w = generateKey rng outputPath size w ∧
      (generateKey rng outputPath size w).isSome = true := by
  refine ⟨?_, generateKey_isSome rng outputPath size w⟩
  unfold generateKeys
  simp only [hpath, if_false, hsize, if_true]

theorem generateKeys_single_witness :
    generateKeys UnicodeTables.latin1 (fun _ => 0) "key-{i}.bin".toList "0".toList 1 7
        World.empty =
      generateKey (fun _ => 0) "key-{i}.bin".toList 0 World.empty ∧
      (generateKey (fun _ => 0) "key-{i}.bin".toList 0 World.empty).isSome = true :=
  generateKeys_single UnicodeTables.latin1 (fun _ => 0) "key-{i}.bin".toList "0".toList 7 0
    World.empty (by decide) rfl

/-- C16: in a batch (count above 1, template with `{i}`), if a call of
`generateKey` returns an error `e`, say the call number `p` of the run, which
is the call for the index `offset + p`, then `generateKeys` returns `e`, the
calls made are exactly those for the indices `offset` to `offset + p`, in
ascending order, all but the last without error, and the files of the
indices before `offset + p` still exist. -/
theorem generateKeys_first_failure (U : UnicodeTables) (rng : Nat → Nat)
    (template generate : List Char) (count offset size : Int) (w w' : World)
    (err : Option GoError) (hsize : parseSizeBytes U generate = Except.ok size)
    (hcont : Contains placeholder template = true) (hcount : 1 < count)
    (hoff : -2 ^ 63 ≤ offset)
    (hrun : generateKeys U rng template generate count offset w = some (err, w'))
    (p : Nat) (path : List Char) (sz : Int) (e : GoError)
    (hfail : (w'.calls.drop w.calls.length)[p]? = some (path, sz, some e)) :
    err = some e ∧ path = keyPath template (offset + (p : Int)) ∧ sz = size ∧
      offset + (p : Int) < wrapInt64 (count + offset) ∧
      w'.calls = w.calls ++ batchCalls template size offset (p + 1) (some e) ∧
      ∀ q : Nat, q < p →
        (w'.files.lookup (keyPath template (offset + (q : Int)))).isSome = true := by
  rw [generateKeys_batch U rng template generate count offset size w hsize hcont (by omega)]
    at hrun
  obtain ⟨k, hcalls, hA, -, -, -, hE⟩ := generateKeysLoop_spec rng template size
    (wrapInt64 (count + offset)) _ offset w w' err hoff (wrapInt64_range _).2 hrun
  rw [hcalls, List.drop_left, batchCalls_getElem?] at hfail
  by_cases hp : p < k
  · simp only [hp, if_true, Option.some.injEq, Prod.mk.injEq] at hfail
    obtain ⟨h1, h2, h3⟩ := hfail
    by_cases hk : p + 1 = k
    · simp only [hk, if_true] at h3
      subst hk
      refine ⟨h3, h1.symm, h2.symm, ?_, by rw [hcalls, h3], fun q hq => hE q (by omega)
        (Or.inl (by omega))⟩
      rcases hA with hA | hA
      · omega
      · push_cast at hA
        omega
    · simp only [hk, if_false] at h3
      cases h3
  · simp only [hp, if_false] at hfail
    cases hfail

theorem generateKeys_first_failure_witness :
    some (GoError.ioError 2) = some (GoError.ioError 2) ∧
      "d/key-3.bin".toList = keyPath "d/key-{i}.bin".toList (2 + ((1 : Nat) : Int)) ∧
      (0 : Int) = 0 ∧
      2 + ((1 : Nat) : Int) < wrapInt64 (3 + 2) ∧
      (⟨[("d/key-2.bin".toList, [])], [("d/key-3.bin".toList, 2)], 0,
          [("d/key-2.bin".toList, 0, none),
            ("d/key-3.bin".toList, 0, some (GoError.ioError 2))]⟩ : World).calls =
        (⟨[], [("d/key-3.bin".toList, 2)], 0, []⟩ : World).calls ++
          batchCalls "d/key-{i}.bin".toList 0 2 (1 + 1) (some (GoError.ioError 2)) ∧
      ∀ q : Nat, q < 1 →
        ((⟨[("d/key-2.bin".toList, [])], [("d/key-3.bin".toList, 2)], 0,
            [("d/key-2.bin".toList, 0, none),
              ("d/key-3.bin".toList, 0, some (GoError.ioError 2))]⟩ : World).files.lookup
          (keyPath "d/key-{i}.bin".toList (2 + (q : Int)))).isSome = true :=
  generateKeys_first_failure UnicodeTables.latin1 (fun _ => 0) "d/key-{i}.bin".toList
    "0".toList 3 2 0 ⟨[], [("d/key-3.bin".toList, 2)], 0, []⟩
    ⟨[("d/key-2.bin".toList, [])], [("d/key-3.bin".toList, 2)], 0,
      [("d/key-2.bin".toList, 0, none), ("d/key-3.bin".toList, 0, some (GoError.ioError 2))]⟩
    (some (GoError.ioError 2)) rfl (by decide) (by decide) (by decide) (by decide)
    1 "d/key-3.bin".toList 0 (GoError.ioError 2) (by decide)

/-- C19, as stated, fails: with the count -1 and the offset `-2^63` the sum
`genCount+genOffset` wraps around to `2^63 - 1`, the loop is entered, and
`generateKey` is called for the index `-2^63`; in a world where that path
cannot be opened the run returns the error of the call. -/
theorem generateKeys_nonpositive_count_counterexample :
    generateKeys UnicodeTables.latin1 (fun _ => 0) "k{i}".toList "0".toList (-1)
        (-9223372036854775808) ⟨[], [("k-9223372036854775808".toList, 13)], 0, []⟩ =
      some (some (GoError.ioError 13),
        ⟨[], [("k-9223372036854775808".toList, 13)], 0,
          [("k-9223372036854775808".toList, 0, some (GoError.ioError 13))]⟩) := by
  decide

/-- C19, amended: for a count of at most 0, with a valid size and a non-empty
template, `generateKeys` takes the batch branch. Without `{i}` in the
template it returns `ErrMissingPlaceholder`, for every offset. With `{i}` in
the template, when the sum of the count and the offset does not fall below
`-2^63`, it returns no error. In both cases the world is left as it was,
without any call of `generateKey`. -/
theorem generateKeys_nonpositive_count (U : UnicodeTables) (rng : Nat → Nat)
    (template generate : List Char) (count offset size : Int) (w : World)
    (hpath : template ≠ []) (hsize : parseSizeBytes U generate = Except.ok size)
    (hcount : count ≤ 0) :
    (Contains placeholder template = false →
      generateKeys U rng template generate count offset w =
        some (some GoError.ErrMissingPlaceholder, w)) ∧
    (Contains placeholder template = true → offset ≤ 2 ^ 63 - 1 → -2 ^ 63 ≤ count + offset →
      generateKeys U rng template generate count offset w = some (none, w)) := by
  have hne : count ≠ 1 := by omega
  constructor
  · intro hno
    unfold generateKeys
    simp only [hpath, if_false, hsize, hne, hno, Bool.not_false, if_true]
  · intro hcont hoff hsum
    rw [generateKeys_batch U rng template generate count offset size w hsize hcont hne,
      wrapInt64_of_isInt64 (count + offset) hsum (by omega)]
    have hfuel : (count + offset - offset).toNat + 1 = 0 + 1 := by omega
    have hnlt : ¬ (offset < count + offset) := by omega
    rw [hfuel, generateKeysLoop]
    simp only [hnlt, if_false]

theorem generateKeys_nonpositive_count_witness :
    (Contains placeholder "key.bin".toList = false →
      generateKeys UnicodeTables.latin1 (fun _ => 0) "key.bin".toList "0".toList (-1)
        (-9223372036854775808) World.empty =
          some (some GoError.ErrMissingPlaceholder, World.empty)) ∧
    (Contains placeholder "key.bin".toList = true → (-9223372036854775808 : Int) ≤ 2 ^ 63 - 1 →
      -2 ^ 63 ≤ (-1 : Int) + -9223372036854775808 →
      generateKeys UnicodeTables.latin1 (fun _ => 0) "key.bin".toList "0".toList (-1)
        (-9223372036854775808) World.empty = some (none, World.empty)) :=
  generateKeys_nonpositive_count UnicodeTables.latin1 (fun _ => 0) "key.bin".toList "0".toList
    (-1) (-9223372036854775808) 0 World.empty (by decide) rfl (by decide)

/-- The second half of C19 at an input: with the template `k{i}`, the count -1
and the offset 5, `generateKeys` returns no error and leaves the world as it was. -/
theorem generateKeys_nonpositive_count_example :
    generateKeys UnicodeTables.latin1 (fun _ => 0) "k{i}".toList "0".toList (-1) 5
      World.empty = some (none, World.empty) := by
  decide

/-! ## `generateKey` and the access mode of the file -/

/-- With a size above 0 and a path that can be opened, `generateKey` creates
the file when it does not exist, takes bytes from the random source, and
fails when it writes them: the file was opened with `os.O_CREATE` alone, so
without write access, and `Write` returns `EBADF`. No file changes its
content. -/
theorem generateKey_write_fails (rng : Nat → Nat) (filePath : List Char) (genSize : Int)
    (w : World) (hsize : 0 < genSize) (hopen : w.denied.lookup filePath = none) :
    ∃ w', generateKey rng filePath genSize w = some (some (GoError.ioError 9), w') ∧
      w'.files = (if (w.files.lookup filePath).isSome then w.files
        else w.files ++ [(filePath, [])]) := by
  have hflag : O_CREATE / O_CREATE % 2 = 1 := by decide
  have hmode : O_CREATE % 4 = O_RDONLY := by decide
  have hopenres : ∃ w₁, OpenFile w filePath O_CREATE createFilePerm =
        (Except.ok ⟨filePath, O_CREATE, 0⟩, w₁) ∧
      w₁.files = (if (w.files.lookup filePath).isSome then w.files
        else w.files ++ [(filePath, [])]) := by
    unfold OpenFile
    rw [hopen]
    cases hf : w.files.lookup filePath with
    | some c => exact ⟨w, rfl, by simp⟩
    | none =>
      exact ⟨{ w with files := w.files ++ [(filePath, [])] }, by simp only [hflag, if_true],
        by simp⟩
  obtain ⟨w₁, ho, hfiles⟩ := hopenres
  have hnr : ∀ size : Nat, 1 ≤ size → Nat.min size genSize.toNat > 0 := by
    intro size hs
    simp only [Nat.min_def]
    split <;> omega
  have hcopy : ∀ size : Nat, 1 ≤ size →
      copyLoop rng size (genSize.toNat + 1) genSize ⟨filePath, O_CREATE, 0⟩ w₁ 0 =
        some (0, some (GoError.ioError 9), ⟨filePath, O_CREATE, 0⟩,
          { w₁ with randPos := w₁.randPos + Nat.min size genSize.toNat }) := by
    intro size hs
    rw [copyLoop]
    simp only [not_le.mpr hsize, if_false, randRead, hnr size hs, if_true, File.Write, hmode,
      ne_eq, not_false_eq_true, reduceCtorEq]
    rfl
  have hsz : 1 ≤ (if genSize < 32768 then (if genSize < 1 then 1 else genSize.toNat)
      else 32768 : Nat) := by
    split
    · split <;> omega
    · omega
  have hcn : ∃ w₂, CopyN rng ⟨filePath, O_CREATE, 0⟩ genSize w₁ =
        some (0, some (GoError.ioError 9), ⟨filePath, O_CREATE, 0⟩, w₂) ∧
      w₂.files = w₁.files := by
    unfold CopyN
    simp only [hcopy _ hsz]
    have h0 : ¬ ((0 : Int) = genSize) := by omega
    have h1 : ¬ (0 < genSize ∧ some (GoError.ioError 9) = (none : Option GoError)) := by
      intro h; cases h.2
    simp only [h0, if_false, h1]
    exact ⟨_, rfl, rfl⟩
  obtain ⟨w₂, hc, hfiles₂⟩ := hcn
  unfold generateKey
  rw [ho]
  simp only [hc]
  exact ⟨_, rfl, by simp only [hfiles₂, hfiles]⟩

/-- With the flag `os.O_CREATE|os.O_WRONLY` the same steps write the random
bytes: the model of the files accepts writes on a file opened for writing. -/
theorem CopyN_writable_example :
    (match OpenFile World.empty "key.bin".toList (O_CREATE + O_WRONLY) createFilePerm with
      | (Except.ok f, w) => CopyN (fun k => k + 1) f 3 w
      | (Except.error _, _) => none) =
      some (3, none, ⟨"key.bin".toList, O_CREATE + O_WRONLY, 3⟩,
        ⟨[("key.bin".toList, [1, 2, 3])], [], 3, []⟩) := by
  decide

/-- C17: at the path `key.bin`, in a world without files where every path can
be opened, and with the size 1, `generateKey` creates the file, leaves it
empty and returns the error `EBADF` of the write, for every random source. -/
theorem generateKey_size_one :
    ∀ rng : Nat → Nat, generateKey rng "key.bin".toList 1 World.empty =
      some (some (GoError.ioError 9),
        ⟨[("key.bin".toList, [])], [], 1,
          [("key.bin".toList, 1, some (GoError.ioError 9))]⟩) := by
  intro rng
  rfl

/-! ## The decimal string of an index -/

theorem digitChar_toNat (d : Nat) (hd : d < 10) : (Char.ofNat ('0'.toNat + d)).toNat = 48 + d := by
  interval_cases d <;> rfl

/-- Reading the digits that `formatDigits` writes gives the number back. -/
theorem decimalValueFrom_formatDigits (fuel u : Nat) (acc : List Char) (h : u < fuel) :
    decimalValueFrom (formatDigits fuel u acc) 0 = decimalValueFrom acc u := by
  induction fuel generalizing u acc with
  | zero => omega
  | succ fuel ih =>
    unfold formatDigits
    have e0 : '0'.toNat = 48 := rfl
    by_cases hu : u ≥ 10
    · simp only [hu, if_true]
      rw [ih (u / 10) _ (by omega)]
      have hd := digitChar_toNat (u % 10) (Nat.mod_lt _ (by decide))
      rw [e0] at hd
      simp only [decimalValueFrom, e0, hd]
      congr 1
      omega
    · have hd := digitChar_toNat u (by omega)
      rw [e0] at hd
      simp only [hu, if_false, decimalValueFrom, e0, hd]
      congr 1
      omega

theorem formatDigits_digits (fuel u : Nat) (acc : List Char) :
    ∀ c ∈ formatDigits fuel u acc, c ∈ acc ∨ isAsciiDigit c = true := by
  induction fuel generalizing u acc with
  | zero => intro c hc; exact Or.inl hc
  | succ fuel ih =>
    unfold formatDigits
    have hdig : ∀ d, d < 10 → isAsciiDigit (Char.ofNat ('0'.toNat + d)) = true := by
      intro d hd
      rw [isAsciiDigit_iff, digitChar_toNat d hd]
      omega
    by_cases hu : u ≥ 10
    · simp only [hu, if_true]
      intro c hc
      rcases ih (u / 10) _ c hc with h | h
      · rcases List.mem_cons.mp h with h | h
        · exact Or.inr (h ▸ hdig (u % 10) (Nat.mod_lt _ (by decide)))
        · exact Or.inl h
      · exact Or.inr h
    · simp only [hu, if_false]
      intro c hc
      rcases List.mem_cons.mp hc with h | h
      · exact Or.inr (h ▸ hdig u (by omega))
      · exact Or.inl h

theorem formatDigits_ne_nil (fuel u : Nat) (acc : List Char) :
    formatDigits (fuel + 1) u acc ≠ [] := by
  induction fuel generalizing u acc with
  | zero =>
    unfold formatDigits
    split
    · simp [formatDigits]
    · simp
  | succ fuel ih =>
    unfold formatDigits
    split
    · exact ih _ _
    · simp

/-- Different integers have different decimal strings. -/
theorem Itoa_injective (a b : Int) (h : Itoa a = Itoa b) : a = b := by
  have hval : ∀ n : Nat, decimalValue (formatDigits (n + 1) n []) = n := by
    intro n
    unfold decimalValue
    rw [decimalValueFrom_formatDigits (n + 1) n [] (by omega)]
    rfl
  have hhead : ∀ n : Nat, ∀ tl, formatDigits (n + 1) n [] ≠ '-' :: tl := by
    intro n tl heq
    have hmem : '-' ∈ formatDigits (n + 1) n [] := by rw [heq]; exact List.mem_cons_self _ _
    rcases formatDigits_digits (n + 1) n [] '-' hmem with h | h
    · cases h
    · exact absurd h (by decide)
  unfold Itoa at h
  by_cases ha : a < 0
  · by_cases hb : b < 0
    · simp only [ha, hb, if_true, List.cons.injEq, true_and] at h
      have := congrArg decimalValue h
      rw [hval, hval] at this
      omega
    · simp only [ha, hb, if_true, if_false] at h
      exact absurd h.symm (hhead _ _)
  · by_cases hb : b < 0
    · simp only [ha, hb, if_true, if_false] at h
      exact absurd h (hhead _ _)
    · simp only [ha, hb, if_false] at h
      have := congrArg decimalValue h
      rw [hval, hval] at this
      omega

/-! ## Replacing the placeholder -/

theorem isPrefixOf_length_le (old s : List Char) (h : old.isPrefixOf s = true) :
    old.length ≤ s.length :=
  (List.isPrefixOf_iff_prefix.mp h).length_le

/-- The length of the result of `ReplaceAll`: every match takes the length of
`old` out and puts the length of `new` in. -/
theorem replaceAllFrom_length (old new : List Char) (hold : old ≠ []) (k : Nat)
    (s : List Char) :
    (replaceAllFrom old new k s).length + Nat.min k s.length +
        replacedFrom old k s * old.length =
      s.length + replacedFrom old k s * new.length := by
  have holdpos : 0 < old.length := List.length_pos.mpr hold
  induction s generalizing k with
  | nil => cases k <;> simp [replaceAllFrom, replacedFrom]
  | cons c cs ih =>
    cases k with
    | zero =>
      by_cases hpre : old.isPrefixOf (c :: cs) = true
      · have hlen := isPrefixOf_length_le old (c :: cs) hpre
        have := ih (old.length - 1)
        simp only [List.length_cons] at hlen
        have hmin : Nat.min (old.length - 1) cs.length = old.length - 1 :=
          Nat.min_eq_left (by omega)
        rw [hmin] at this
        simp only [replaceAllFrom, replacedFrom, hpre, if_true, List.length_append,
          List.length_cons, Nat.succ_mul, Nat.min_def]
        simp only [Nat.zero_le, if_true]
        omega
      · have := ih 0
        simp only [Nat.min_def, Nat.zero_le, if_true] at this
        simp only [replaceAllFrom, replacedFrom, hpre, if_false, List.length_cons, Nat.min_def,
          Bool.false_eq_true]
        simp only [Nat.zero_le, if_true]
        omega
    | succ k =>
      have := ih k
      simp only [replaceAllFrom, replacedFrom, List.length_cons]
      have hmin : Nat.min (k + 1) (cs.length + 1) = Nat.min k cs.length + 1 := by
        simp only [Nat.min_def]
        split <;> split <;> omega
      rw [hmin]
      omega

/-- In a string that contains `old`, replacing `old` by different strings
gives different results. -/
theorem replaceAllFrom_injective (old : List Char) (hold : old ≠ []) (s x y : List Char)
    (hc : Contains old s = true)
    (h : replaceAllFrom old x 0 s = replaceAllFrom old y 0 s) : x = y := by
  induction s with
  | nil =>
    cases old with
    | nil => exact absurd rfl hold
    | cons o os => simp [Contains] at hc
  | cons c cs ih =>
    by_cases hpre : old.isPrefixOf (c :: cs) = true
    · simp only [replaceAllFrom, hpre, if_true] at h
      have hx := replaceAllFrom_length old x hold (old.length - 1) cs
      have hy := replaceAllFrom_length old y hold (old.length - 1) cs
      have hl := congrArg List.length h
      simp only [List.length_append] at hl
      have hlen : x.length = y.length := by
        rcases Nat.lt_trichotomy x.length y.length with hlt | heq | hgt
        · have := Nat.mul_le_mul_left (replacedFrom old (old.length - 1) cs) (Nat.le_of_lt hlt)
          omega
        · exact heq
        · have := Nat.mul_le_mul_left (replacedFrom old (old.length - 1) cs) (Nat.le_of_lt hgt)
          omega
      exact (List.append_inj h hlen).1
    · simp only [replaceAllFrom, hpre, if_false, List.cons.injEq, true_and,
        Bool.false_eq_true] at h
      simp only [Contains, hpre, Bool.false_or] at hc
      exact ih hc h

/-- The paths of two different indices differ, for a template that contains `{i}`. -/
theorem keyPath_injective (template : List Char) (a b : Int)
    (hcont : Contains placeholder template = true)
    (h : keyPath template a = keyPath template b) : a = b :=
  Itoa_injective a b
    (replaceAllFrom_injective placeholder (by decide) template (Itoa a) (Itoa b) hcont h)

/-- C20: for a template that contains `{i}` and two different integers `a` and
`b`, replacing every `{i}` by the decimal string of `a` gives another path
than replacing it by that of `b`; so the paths of the calls of a batch, which
are those of consecutive indices, are pairwise distinct. -/
theorem keyPath_distinct (template : List Char) (a b : Int)
    (hcont : Contains placeholder template = true) (hab : a ≠ b) :
    ReplaceAll template placeholder (Itoa a) ≠ ReplaceAll template placeholder (Itoa b) ∧
      ∀ (size offset : Int) (k : Nat) (last : Option GoError),
        ((batchCalls template size offset k last).map fun c => c.1).Nodup := by
  refine ⟨fun h => hab (keyPath_injective template a b hcont h), ?_⟩
  intro size offset k last
  unfold batchCalls
  rw [List.map_map]
  refine List.Nodup.map ?_ (List.nodup_range k)
  intro i j hij
  simp only [Function.comp] at hij
  have := keyPath_injective template _ _ hcont hij
  omega

theorem keyPath_distinct_witness :
    ReplaceAll "key-{i}.bin".toList placeholder (Itoa 2) ≠
        ReplaceAll "key-{i}.bin".toList placeholder (Itoa 3) ∧
      ∀ (size offset : Int) (k : Nat) (last : Option GoError),
        ((batchCalls "key-{i}.bin".toList size offset k last).map fun c => c.1).Nodup :=
  keyPath_distinct "key-{i}.bin".toList 2 3 (by decide) (by decide)

end OtpCli
